import Mathlib

/-!
Verification of the compound-key map (`src/lib/ckey.ts`).

The development shallowly embeds the TypeScript source:

* JavaScript scalar values (`Scalar = number | string | symbol | undefined | null`,
  plus the non-scalar "other" runtime values) become the inductive `JsValue`;
  numbers are modelled as integers (`Int`).
* The numeric results of `rank - rank` arithmetic, where `Rank.OTHER = Infinity`,
  are modelled by `ENum` (an integer, `Infinity`, `-Infinity`, or `NaN`).
* JavaScript string comparison (`<` on strings) is modelled by `lexCmp` on the
  underlying character lists (code-unit lexicographic order).
* A compound key is a list of fields (selector, value, enumerable-flag); the two
  key-sequence strategies `asObjects` / `asValues` and the trie-backed `CMap`
  with `get`/`set` follow the source.  `delete` and the `size` counter are not
  present in `src/lib/ckey.ts` (only the test suite exercises them), so they are
  modelled from the spec where marked.
-/

set_option maxRecDepth 4000

unseal List.merge List.mergeSort

/-- Property selectors of a JavaScript object: a string name or a symbol.
A symbol is identified by `id` (JS symbols compare by identity) and carries a
printable description `desc`. -/
inductive Sel where
  | str (s : String)
  | sym (id : Nat) (desc : String)
  deriving DecidableEq, Repr

/-- Runtime JavaScript values appearing as key-field values or selectors.
`num`/`str`/`sym`/`undefined`/`nullv` are the supported scalars (`Scalar` in the
source); `other` stands for any non-scalar runtime value (object, array, ...),
tagged only to distinguish concrete instances.  Numbers are modelled as `Int`. -/
inductive JsValue where
  | num (n : Int)
  | str (s : String)
  | sym (id : Nat) (desc : String)
  | undefined
  | nullv
  | other (tag : String)
  deriving DecidableEq, Repr

/-- JavaScript numbers produced by the comparator's rank arithmetic: a finite
integer, `Infinity`, `-Infinity` or `NaN` (since `Rank.OTHER = Infinity`). -/
inductive ENum where
  | int (n : Int)
  | inf
  | neginf
  | nan
  deriving DecidableEq, Repr

/-- IEEE subtraction restricted to the values reachable from rank arithmetic. -/
def ENum.sub : ENum → ENum → ENum
  | .int a, .int b => .int (a - b)
  | .inf, .int _ => .inf
  | .int _, .inf => .neginf
  | .inf, .inf => .nan
  | .neginf, .int _ => .neginf
  | .int _, .neginf => .inf
  | .neginf, .inf => .neginf
  | .inf, .neginf => .inf
  | .neginf, .neginf => .nan
  | .nan, _ => .nan
  | _, .nan => .nan

/-- `enum Rank` from the source. -/
inductive Rank where
  | UNDEFINED
  | NULL
  | NUMBER
  | STRING
  | SYMBOL
  | OTHER
  deriving DecidableEq, Repr

/-- The numeric value of each `Rank` member: `UNDEFINED = 0, NULL = 10,
NUMBER = 20, STRING = 30, SYMBOL = 40, OTHER = Infinity`. -/
def Rank.toENum : Rank → ENum
  | .UNDEFINED => .int 0
  | .NULL => .int 10
  | .NUMBER => .int 20
  | .STRING => .int 30
  | .SYMBOL => .int 40
  | .OTHER => .inf

/-- `rankScalarType` from the source: `undefined` and `null` are matched by the
outer `switch (a)`, the rest by `typeof a`. -/
def rankScalarType : JsValue → Rank
  | .undefined => .UNDEFINED
  | .nullv => .NULL
  | .num _ => .NUMBER
  | .str _ => .STRING
  | .sym _ _ => .SYMBOL
  | .other _ => .OTHER

/-- JavaScript `<` on strings, as a three-way comparison over the character
lists (code-unit lexicographic order): negative, zero, or positive. -/
def lexCmp : List Char → List Char → Int
  | [], [] => 0
  | [], _ :: _ => -1
  | _ :: _, [] => 1
  | a :: as, b :: bs => if a < b then -1 else if b < a then 1 else lexCmp as bs

/-- Three-way comparison of two strings, as computed by the source's
`a < b ? -1 : a > b ? +1 : 0` on JavaScript strings. -/
def jsStrCmp (a b : String) : Int := lexCmp a.data b.data

/-- `Symbol.prototype.toString()`: the printable rendering of a symbol. -/
def symToString (desc : String) : String := "Symbol(" ++ desc ++ ")"

/-- The `(a as number)` cast in the `Rank.NUMBER` branch (meaningful only when
the value really is a number, which the rank dispatch guarantees). -/
def JsValue.asNum : JsValue → Int
  | .num n => n
  | _ => 0

/-- The `(a as string)` cast in the `Rank.STRING` branch. -/
def JsValue.asStr : JsValue → String
  | .str s => s
  | _ => ""

/-- The `a!.toString()` call in the `Rank.SYMBOL` branch. -/
def JsValue.symStr : JsValue → String
  | .sym _ d => symToString d
  | _ => ""

/-- `compareScalars` from the source.  It first subtracts the two ranks and
returns that difference whenever it is `!== 0` (which, because
`Rank.OTHER = Infinity`, includes the `Infinity`/`-Infinity`/`NaN` results that
arise when either argument is non-scalar).  Only when the ranks are equal
integers does it dispatch on the rank; the `Rank.OTHER` branch throws
`Non-scalar values`.  (The source's final `default:` branch is unreachable
because the `switch` covers every `Rank` member.) -/
def compareScalars (a b : JsValue) : Except String ENum :=
  let rank := rankScalarType a
  let compareRanks := ENum.sub rank.toENum (rankScalarType b).toENum
  if compareRanks ≠ ENum.int 0 then .ok compareRanks
  else
    match rank with
    | .UNDEFINED => .ok (.int 0)
    | .NULL => .ok (.int 0)
    | .NUMBER => .ok (.int (a.asNum - b.asNum))
    | .STRING => .ok (.int (jsStrCmp a.asStr b.asStr))
    | .SYMBOL => .ok (.int (jsStrCmp a.symStr b.symStr))
    | .OTHER => .error "Non-scalar values"

/-- The integer result of `compareScalars` (scalar operands always produce a
finite integer; the junk value 0 is returned in the unreachable cases). -/
def scmp (a b : JsValue) : Int :=
  match compareScalars a b with
  | .ok (.int n) => n
  | _ => 0

/-- The supported scalar vocabulary: everything except "other"-rank values. -/
def IsScalar (a : JsValue) : Prop := rankScalarType a ≠ .OTHER

instance (a : JsValue) : Decidable (IsScalar a) := by
  unfold IsScalar; infer_instance

/-- The integer rank of a scalar (junk value 50 for non-scalars). -/
def rankv : JsValue → Int
  | .undefined => 0
  | .nullv => 10
  | .num _ => 20
  | .str _ => 30
  | .sym _ _ => 40
  | .other _ => 50

/-- The within-rank comparison performed by `compareScalars` once the ranks are
equal (junk value 0 for mismatched kinds, which the rank dispatch rules out). -/
def wcmpInt : JsValue → JsValue → Int
  | .num x, .num y => x - y
  | .str x, .str y => lexCmp x.data y.data
  | .sym _ dx, .sym _ dy => lexCmp (symToString dx).data (symToString dy).data
  | _, _ => 0

theorem lexCmp_neg (a : List Char) : ∀ b, lexCmp b a = -lexCmp a b := by
  induction a with
  | nil => intro b; cases b <;> simp [lexCmp]
  | cons x xs ih =>
    intro b
    cases b with
    | nil => simp [lexCmp]
    | cons y ys =>
      by_cases h1 : x < y
      · have h2 : ¬ y < x := lt_asymm h1
        simp [lexCmp, h1, h2]
      · by_cases h2 : y < x
        · simp [lexCmp, h1, h2]
        · simp [lexCmp, h1, h2, ih ys]

theorem lexCmp_zero_iff (a : List Char) : ∀ b, lexCmp a b = 0 ↔ a = b := by
  induction a with
  | nil => intro b; cases b <;> simp [lexCmp]
  | cons x xs ih =>
    intro b
    cases b with
    | nil => simp [lexCmp]
    | cons y ys =>
      by_cases h1 : x < y
      · have hxy : x ≠ y := ne_of_lt h1
        simp [lexCmp, h1, hxy]
      · by_cases h2 : y < x
        · have hxy : x ≠ y := (ne_of_lt h2).symm
          simp [lexCmp, h1, h2, hxy]
        · have hxy : x = y := le_antisymm (not_lt.mp h2) (not_lt.mp h1)
          simp [lexCmp, h1, h2, hxy, ih ys]

theorem lexCmp_lt_trans {a b c : List Char} (hab : lexCmp a b < 0) (hbc : lexCmp b c < 0) :
    lexCmp a c < 0 := by
  induction a generalizing b c with
  | nil =>
    cases b with
    | nil => simp [lexCmp] at hab
    | cons y ys => cases c <;> simp [lexCmp] at hbc ⊢
  | cons x xs ih =>
    cases b with
    | nil => simp [lexCmp] at hab
    | cons y ys =>
      cases c with
      | nil => simp [lexCmp] at hbc
      | cons z zs =>
        by_cases hxy : x < y
        · by_cases hyz : y < z
          · have hxz : x < z := lt_trans hxy hyz
            simp [lexCmp, hxz]
          · by_cases hzy : z < y
            · simp [lexCmp, hyz, hzy] at hbc
            · have hyz' : y = z := le_antisymm (not_lt.mp hzy) (not_lt.mp hyz)
              subst hyz'
              simp [lexCmp, hxy]
        · by_cases hyx : y < x
          · simp [lexCmp, hxy, hyx] at hab
          · have hxy' : x = y := le_antisymm (not_lt.mp hyx) (not_lt.mp hxy)
            subst hxy'
            by_cases hxz : x < z
            · simp [lexCmp, hxz]
            · by_cases hzx : z < x
              · simp [lexCmp, hxz, hzx] at hbc
              · simp [lexCmp, hxy, hxz, hzx] at hab hbc ⊢
                exact ih hab hbc

theorem scmp_eq {a b : JsValue} (ha : IsScalar a) (hb : IsScalar b) :
    scmp a b = if rankv a = rankv b then wcmpInt a b else rankv a - rankv b := by
  cases a <;> cases b <;>
    first
      | exact absurd rfl ha
      | exact absurd rfl hb
      | simp +decide [scmp, compareScalars, rankScalarType, Rank.toENum, ENum.sub, rankv,
          wcmpInt, JsValue.asNum, JsValue.asStr, JsValue.symStr, jsStrCmp]

theorem scmp_ok_int {a b : JsValue} (ha : IsScalar a) (hb : IsScalar b) :
    compareScalars a b = .ok (.int (scmp a b)) := by
  cases a <;> cases b <;>
    first
      | exact absurd rfl ha
      | exact absurd rfl hb
      | rfl

theorem wcmpInt_neg (a b : JsValue) : wcmpInt b a = -wcmpInt a b := by
  cases a <;> cases b <;> simp [wcmpInt] <;>
    first
      | omega
      | (rw [lexCmp_neg])

theorem wcmpInt_lt_trans {a b c : JsValue} (h1 : wcmpInt a b < 0) (h2 : wcmpInt b c < 0) :
    wcmpInt a c < 0 := by
  cases a <;> cases b <;> simp [wcmpInt] at h1 ⊢ <;> cases c <;> simp [wcmpInt] at h2 ⊢
  · omega
  · exact lexCmp_lt_trans h1 h2
  · exact lexCmp_lt_trans h1 h2

theorem scmp_neg {a b : JsValue} (ha : IsScalar a) (hb : IsScalar b) :
    scmp b a = -scmp a b := by
  rw [scmp_eq ha hb, scmp_eq hb ha, wcmpInt_neg]
  split_ifs with h1 h2 h2 <;> omega

theorem scmp_lt_trans {a b c : JsValue} (ha : IsScalar a) (hb : IsScalar b) (hc : IsScalar c)
    (h1 : scmp a b < 0) (h2 : scmp b c < 0) : scmp a c < 0 := by
  rw [scmp_eq ha hb] at h1
  rw [scmp_eq hb hc] at h2
  rw [scmp_eq ha hc]
  split_ifs at h1 h2 ⊢ with hab hbc hac <;>
    first
      | omega
      | (exact wcmpInt_lt_trans h1 h2)

/-- C5: the scalar comparator is a total order on supported scalars: the sign
of `compare(a,b)` is the negation of the sign of `compare(b,a)`, the induced
strict order is transitive, and scalars of distinct rank classes are ordered
`undefined < null < number < string < symbol` (the integer ranks 0, 10, 20, 30,
40 recorded by `rankv`).  The first conjunct ties the integer `scmp` to the
source function `compareScalars`, which returns it without raising. -/
theorem compareScalars_total_order (a b c : JsValue)
    (ha : IsScalar a) (hb : IsScalar b) (hc : IsScalar c) :
    compareScalars a b = .ok (.int (scmp a b))
    ∧ Int.sign (scmp a b) = -Int.sign (scmp b a)
    ∧ (scmp a b < 0 → scmp b c < 0 → scmp a c < 0)
    ∧ (rankv a < rankv b → scmp a b < 0) := by
  refine ⟨scmp_ok_int ha hb, ?_, fun h1 h2 => scmp_lt_trans ha hb hc h1 h2, ?_⟩
  · rw [scmp_neg ha hb, Int.sign_neg, neg_neg]
  · intro hr
    rw [scmp_eq ha hb]
    split_ifs with h <;> omega

theorem compareScalars_total_order_witness :
    Int.sign (scmp JsValue.undefined JsValue.nullv) = -Int.sign (scmp JsValue.nullv JsValue.undefined) :=
  (compareScalars_total_order JsValue.undefined JsValue.nullv (JsValue.num 0)
    (by decide) (by decide) (by decide)).2.1

/-- C6: contrary to the claim, the comparator never raises the `NonScalarValue`
error on inputs of rank "other".  Because `Rank.OTHER = Infinity`, the rank
difference computed first is `Infinity`, `-Infinity`, or (for two other-rank
inputs) `NaN`; each is `!== 0`, so `compareScalars` returns it before ever
reaching the `throw new Error('Non-scalar values')` branch, which is therefore
unreachable: the final conjunct shows the function returns a value on every
input whatsoever. -/
theorem compareScalars_other_rank_no_error :
    compareScalars (.other "a") (.other "b") = .ok .nan
    ∧ compareScalars (.other "a") (.num 5) = .ok .inf
    ∧ compareScalars (.num 5) (.other "a") = .ok .neginf
    ∧ (∀ a b : JsValue, ∃ r, compareScalars a b = Except.ok r) := by
  refine ⟨rfl, rfl, rfl, ?_⟩
  intro a b
  cases a <;> cases b <;> exact ⟨_, rfl⟩

/-- One field of a compound key: its selector, its scalar value, and whether
the property is enumerable (the host language's reflection reports it). -/
structure KeyField where
  sel : Sel
  val : JsValue
  enumerable : Bool
  deriving DecidableEq, Repr

/-- A compound key: the fields of the JavaScript object in definition order.
(A real object never defines the same selector twice; lemmas that need this
assume `Nodup` of the selector list.) -/
abbrev CKey := List KeyField

/-- Host reflection `Object.getOwnPropertyNames`: the string-named selectors in
definition order. -/
def getOwnPropertyNames (k : CKey) : List Sel :=
  k.filterMap (fun f => match f.sel with
    | .str _ => some f.sel
    | .sym _ _ => none)

/-- Host reflection `Object.getOwnPropertySymbols`: the symbol selectors in
definition order. -/
def getOwnPropertySymbols (k : CKey) : List Sel :=
  k.filterMap (fun f => match f.sel with
    | .sym _ _ => some f.sel
    | .str _ => none)

/-- Looking a field up by its selector (first definition wins). -/
def findField (k : CKey) (s : Sel) : Option KeyField :=
  k.find? (fun f => f.sel == s)

/-- `Object.getOwnPropertyDescriptor(obj, key)!.enumerable` for a selector
obtained from the reflection lists. -/
def isEnumerable (k : CKey) (s : Sel) : Bool :=
  match findField k s with
  | some f => f.enumerable
  | none => false

/-- `asObjects` from the source: every enumerable selector, string selectors
first (in definition order), then symbol selectors (in definition order);
non-enumerable properties are filtered out by `isEnumerable`. -/
def asObjects (k : CKey) : List Sel :=
  (getOwnPropertyNames k).filter (isEnumerable k)
    ++ (getOwnPropertySymbols k).filter (isEnumerable k)

/-- A selector seen as the scalar value handed to `compareScalars`. -/
def Sel.toJs : Sel → JsValue
  | .str s => .str s
  | .sym i d => .sym i d

/-- The boolean `a ≤ b` order induced by the comparator on selectors, used to
model `Array.prototype.sort(compareScalars)` (a stable comparator sort). -/
def selLe (a b : Sel) : Bool := decide (scmp a.toJs b.toJs ≤ 0)

/-- `asValues` from the source: `[...asObjects(obj)].sort(compareScalars)`,
modelled by the stable `mergeSort` under the comparator's order. -/
def asValues (k : CKey) : List Sel :=
  (asObjects k).mergeSort selLe

/-- `key[keyElement]`: reading a field's value off the key (JavaScript yields
`undefined` for a missing property). -/
def kget (k : CKey) (s : Sel) : JsValue :=
  match findField k s with
  | some f => f.val
  | none => .undefined

/-- Whether a selector is a symbol (as opposed to a string name). -/
def Sel.isSym : Sel → Bool
  | .str _ => false
  | .sym _ _ => true

theorem mem_getOwnPropertyNames_sub {k : CKey} {s : Sel} (h : s ∈ getOwnPropertyNames k) :
    s ∈ k.map KeyField.sel := by
  rcases List.mem_filterMap.mp h with ⟨f, hf, hm⟩
  cases hs : f.sel <;> rw [hs] at hm <;> simp at hm
  subst hm
  exact hs ▸ List.mem_map_of_mem KeyField.sel hf

theorem mem_getOwnPropertySymbols_sub {k : CKey} {s : Sel} (h : s ∈ getOwnPropertySymbols k) :
    s ∈ k.map KeyField.sel := by
  rcases List.mem_filterMap.mp h with ⟨f, hf, hm⟩
  cases hs : f.sel <;> rw [hs] at hm <;> simp at hm
  subst hm
  exact hs ▸ List.mem_map_of_mem KeyField.sel hf

theorem isEnumerable_cons_ne {f : KeyField} {t : CKey} {s : Sel} (h : s ≠ f.sel) :
    isEnumerable (f :: t) s = isEnumerable t s := by
  have : (f.sel == s) = false := by simp [Ne.symm h]
  simp [isEnumerable, findField, List.find?_cons, this]

theorem isEnumerable_cons_self (f : KeyField) (t : CKey) :
    isEnumerable (f :: t) f.sel = f.enumerable := by
  simp [isEnumerable, findField, List.find?_cons]

theorem filter_getOwnPropertyNames_eq (k : CKey) (hnd : (k.map KeyField.sel).Nodup) :
    (getOwnPropertyNames k).filter (isEnumerable k)
      = (k.filter (fun f => f.enumerable && !f.sel.isSym)).map KeyField.sel := by
  induction k with
  | nil => rfl
  | cons f t ih =>
    simp only [List.map_cons, List.nodup_cons] at hnd
    obtain ⟨hf, hnd⟩ := hnd
    have hnames : ∀ s ∈ getOwnPropertyNames t,
        isEnumerable (f :: t) s = isEnumerable t s := fun s hs =>
      isEnumerable_cons_ne (fun he => hf (he ▸ mem_getOwnPropertyNames_sub hs))
    have ihn := ih hnd
    cases hs : f.sel with
    | str name =>
      have h1 : getOwnPropertyNames (f :: t) = f.sel :: getOwnPropertyNames t := by
        simp [getOwnPropertyNames, List.filterMap_cons, hs]
      rw [h1, List.filter_cons, isEnumerable_cons_self, List.filter_congr hnames]
      cases he : f.enumerable <;>
        simp [List.filter_cons, hs, Sel.isSym, he, ihn]
    | sym i d =>
      have h1 : getOwnPropertyNames (f :: t) = getOwnPropertyNames t := by
        simp [getOwnPropertyNames, List.filterMap_cons, hs]
      rw [h1, List.filter_congr hnames]
      simp [List.filter_cons, hs, Sel.isSym, ihn]

theorem filter_getOwnPropertySymbols_eq (k : CKey) (hnd : (k.map KeyField.sel).Nodup) :
    (getOwnPropertySymbols k).filter (isEnumerable k)
      = (k.filter (fun f => f.enumerable && f.sel.isSym)).map KeyField.sel := by
  induction k with
  | nil => rfl
  | cons f t ih =>
    simp only [List.map_cons, List.nodup_cons] at hnd
    obtain ⟨hf, hnd⟩ := hnd
    have hsyms : ∀ s ∈ getOwnPropertySymbols t,
        isEnumerable (f :: t) s = isEnumerable t s := fun s hs =>
      isEnumerable_cons_ne (fun he => hf (he ▸ mem_getOwnPropertySymbols_sub hs))
    have ihn := ih hnd
    cases hs : f.sel with
    | str name =>
      have h2 : getOwnPropertySymbols (f :: t) = getOwnPropertySymbols t := by
        simp [getOwnPropertySymbols, List.filterMap_cons, hs]
      rw [h2, List.filter_congr hsyms]
      simp [List.filter_cons, hs, Sel.isSym, ihn]
    | sym i d =>
      have h2 : getOwnPropertySymbols (f :: t) = f.sel :: getOwnPropertySymbols t := by
        simp [getOwnPropertySymbols, List.filterMap_cons, hs]
      rw [h2, List.filter_cons, isEnumerable_cons_self, List.filter_congr hsyms]
      cases he : f.enumerable <;>
        simp [List.filter_cons, hs, Sel.isSym, he, ihn]

theorem asObjects_eq (k : CKey) (hnd : (k.map KeyField.sel).Nodup) :
    asObjects k =
      (k.filter (fun f => f.enumerable && !f.sel.isSym)).map KeyField.sel
        ++ (k.filter (fun f => f.enumerable && f.sel.isSym)).map KeyField.sel := by
  unfold asObjects
  rw [filter_getOwnPropertyNames_eq k hnd, filter_getOwnPropertySymbols_eq k hnd]

/-- C8: for every compound key whose selectors are distinct (as JavaScript
objects guarantee), the insertion-order strategy `asObjects` yields exactly the
enumerable selectors: all string selectors first, in definition order, then all
symbol selectors, in definition order, and it skips every non-enumerable
field. -/
theorem asObjects_insertion_order (k : CKey) (hnd : (k.map KeyField.sel).Nodup) :
    asObjects k =
      (k.filter (fun f => f.enumerable && !f.sel.isSym)).map KeyField.sel
        ++ (k.filter (fun f => f.enumerable && f.sel.isSym)).map KeyField.sel :=
  asObjects_eq k hnd

theorem asObjects_insertion_order_witness :
    asObjects
        [⟨.str "a", .num 1, true⟩, ⟨.sym 0 "s", .num 2, true⟩,
         ⟨.str "b", .num 3, false⟩, ⟨.str "c", .num 4, true⟩]
      = [.str "a", .str "c", .sym 0 "s"] := by
  rw [asObjects_insertion_order _ (by decide)]
  decide

/-- A trie node (`interface Node<V>` from the source): the optional value slot
(`none` models the `notPresent` sentinel) and the two-level branch table
`next : Map<selector, Map<value, Node>>`, modelled as insertion-ordered
association lists (an absent `next` and an empty map behave identically in
every lookup, so both are modelled by `[]`). -/
inductive Node (V : Type) where
  | mk (value : Option V) (next : List (Sel × List (JsValue × Node V)))

/-- The value slot of a node. -/
def Node.value {V : Type} : Node V → Option V
  | .mk v _ => v

/-- The branch table of a node. -/
def Node.next {V : Type} : Node V → List (Sel × List (JsValue × Node V))
  | .mk _ nx => nx

/-- `Map.prototype.get`: first binding of a key in an association list. -/
def afind {κ β : Type _} [DecidableEq κ] : List (κ × β) → κ → Option β
  | [], _ => none
  | (k, b) :: t, q => if q = k then some b else afind t q

/-- `Map.prototype.set`: replace the binding in place if the key is present
(a JavaScript Map keeps the original insertion position), else append. -/
def aupd {κ β : Type _} [DecidableEq κ] (l : List (κ × β)) (k : κ) (b : β) : List (κ × β) :=
  if (afind l k).isSome then l.map (fun p => if p.1 = k then (k, b) else p)
  else l ++ [(k, b)]

/-- `Map.prototype.delete`: drop the binding of a key. -/
def arem {κ β : Type _} [DecidableEq κ] (l : List (κ × β)) (k : κ) : List (κ × β) :=
  l.filter (fun p => p.1 != k)

/-- One step of the walk: `node.next?.get(keyElement)?.get(key[keyElement])`. -/
def lookup2 {V : Type} (nx : List (Sel × List (JsValue × Node V))) (s : Sel) (w : JsValue) :
    Option (Node V) :=
  match afind nx s with
  | none => none
  | some m2 => afind m2 w

/-- The loop of `findNode`: walk the remaining key sequence from a node,
reading each step's value off the key; `none` the moment a step is missing. -/
def walkK {V : Type} : Node V → CKey → List Sel → Option (Node V)
  | n, _, [] => some n
  | n, k, s :: rest =>
    match lookup2 n.next s (kget k s) with
    | none => none
    | some c => walkK c k rest

/-- The loop of `makeNode` fused with the `node.value = value` assignment of
`set` (the state-passing translation of the mutation): walk the remaining key
sequence, creating the missing branch-table entries (`getOrMaybeAdd`) and the
missing child nodes (fresh `{ value: notPresent }`), and store `v` in the
terminal node's value slot. -/
def setK {V : Type} : Node V → CKey → List Sel → V → Node V
  | n, _, [], v => .mk (some v) n.next
  | n, k, s :: rest, v =>
    let w := kget k s
    let m2 := (afind n.next s).getD []
    let child := (afind m2 w).getD (.mk none [])
    .mk n.value (aupd n.next s (aupd m2 w (setK child k rest v)))

/-- Modelled from the spec: the recursive core of `delete` (`CMap.delete` is
absent from `src/lib/ckey.ts`; only the tests exercise it).  Find the terminal
node without creating anything; if it is missing or its value slot is already
absent, report `false` and leave the node untouched.  Otherwise clear the slot
and, unwinding the path, prune every branch-table entry whose child has an
absent value slot and an empty branch table (a selector whose inner value map
empties is dropped as well, so "dead" is exactly `value = none ∧ next = []`). -/
def delK {V : Type} : Node V → CKey → List Sel → Node V × Bool
  | n, _, [] => if n.value.isSome then (.mk none n.next, true) else (n, false)
  | n, k, s :: rest =>
    match afind n.next s with
    | none => (n, false)
    | some m2 =>
      match afind m2 (kget k s) with
      | none => (n, false)
      | some c =>
        let r := delK c k rest
        if r.2 then
          let m2' := if r.1.value.isNone && r.1.next.isEmpty
            then arem m2 (kget k s) else aupd m2 (kget k s) r.1
          let next' := if m2'.isEmpty then arem n.next s else aupd n.next s m2'
          (.mk n.value next', true)
        else (n, false)

/-- The compound map: the root trie node (`values` in the source) and the
`size` counter (modelled from the spec: maintained incrementally, incremented
exactly when a `set` fills an absent value slot and decremented exactly when a
`delete` clears a present one). -/
structure CMap (V : Type) where
  values : Node V
  size : Int

/-- A freshly constructed map: root `{ value: notPresent }`, size 0. -/
def emptyCMap (V : Type) : CMap V := ⟨.mk none [], 0⟩

/-- A key-sequence strategy (the constructor-injected `keyGenerator`). -/
abbrev KeyGen := CKey → List Sel

/-- `findNode` from the source: linearize the key with the strategy and walk
from the root, never creating nodes. -/
def findNode {V : Type} (g : KeyGen) (m : CMap V) (k : CKey) : Option (Node V) :=
  walkK m.values k (g k)

/-- `get` from the source: `undefined` (here `none`) when there is no terminal
node or its value slot is `notPresent`, else the stored value. -/
def CMap.get {V : Type} (g : KeyGen) (m : CMap V) (k : CKey) : Option V :=
  match findNode g m k with
  | none => none
  | some n => n.value

/-- `set` from the source (`makeNode` then overwrite the value slot, returning
the updated map — the pure rendering of `return this`); the size update is
modelled from the spec: increment only when the slot was absent. -/
def CMap.set {V : Type} (g : KeyGen) (m : CMap V) (k : CKey) (v : V) : CMap V :=
  let wasPresent := (CMap.get g m k).isSome
  { values := setK m.values k (g k) v
    size := m.size + (if wasPresent then 0 else 1) }

/-- Modelled from the spec: `delete(key) → bool` (absent from the source file;
see `delK`).  Returns the updated map and the boolean result. -/
def CMap.delete {V : Type} (g : KeyGen) (m : CMap V) (k : CKey) : CMap V × Bool :=
  let r := delK m.values k (g k)
  if r.2 then ({ values := r.1, size := m.size - 1 }, true) else (m, false)

/-- Modelled from the spec: `has(key)` is true iff `get` finds a present
value. -/
def CMap.has {V : Type} (g : KeyGen) (m : CMap V) (k : CKey) : Bool :=
  (CMap.get g m k).isSome

/-- A linearized key step: the selector together with the key's value at it. -/
abbrev Step := Sel × JsValue

/-- The fully linearized key: what the trie walk actually consumes. -/
def steps (g : KeyGen) (k : CKey) : List Step :=
  (g k).map (fun s => (s, kget k s))

/-- Path form of the walk, consuming precomputed (selector, value) steps. -/
def walkP {V : Type} : Node V → List Step → Option (Node V)
  | n, [] => some n
  | n, (s, w) :: rest =>
    match lookup2 n.next s w with
    | none => none
    | some c => walkP c rest

/-- The value stored at the end of a path, if the whole path exists. -/
def lookupVal {V : Type} (n : Node V) (p : List Step) : Option V :=
  match walkP n p with
  | none => none
  | some t => t.value

/-- Path form of `setK`. -/
def setP {V : Type} : Node V → List Step → V → Node V
  | n, [], v => .mk (some v) n.next
  | n, (s, w) :: rest, v =>
    let m2 := (afind n.next s).getD []
    let child := (afind m2 w).getD (.mk none [])
    .mk n.value (aupd n.next s (aupd m2 w (setP child rest v)))

/-- Path form of `delK`. -/
def delP {V : Type} : Node V → List Step → Node V × Bool
  | n, [] => if n.value.isSome then (.mk none n.next, true) else (n, false)
  | n, (s, w) :: rest =>
    match afind n.next s with
    | none => (n, false)
    | some m2 =>
      match afind m2 w with
      | none => (n, false)
      | some c =>
        let r := delP c rest
        if r.2 then
          let m2' := if r.1.value.isNone && r.1.next.isEmpty
            then arem m2 w else aupd m2 w r.1
          let next' := if m2'.isEmpty then arem n.next s else aupd n.next s m2'
          (.mk n.value next', true)
        else (n, false)

theorem walkK_eq_walkP {V : Type} (k : CKey) : ∀ (seq : List Sel) (n : Node V),
    walkK n k seq = walkP n (seq.map (fun s => (s, kget k s))) := by
  intro seq
  induction seq with
  | nil => intro n; rfl
  | cons s rest ih =>
    intro n
    simp only [walkK, walkP, List.map_cons]
    cases lookup2 n.next s (kget k s) <;> simp [ih]

theorem setK_eq_setP {V : Type} (k : CKey) (v : V) : ∀ (seq : List Sel) (n : Node V),
    setK n k seq v = setP n (seq.map (fun s => (s, kget k s))) v := by
  intro seq
  induction seq with
  | nil => intro n; rfl
  | cons s rest ih =>
    intro n
    simp only [setK, setP, List.map_cons, ih]

theorem delK_eq_delP {V : Type} (k : CKey) : ∀ (seq : List Sel) (n : Node V),
    delK n k seq = delP n (seq.map (fun s => (s, kget k s))) := by
  intro seq
  induction seq with
  | nil => intro n; rfl
  | cons s rest ih =>
    intro n
    simp only [delK, delP, List.map_cons, ih]

theorem get_eq_lookupVal {V : Type} (g : KeyGen) (m : CMap V) (k : CKey) :
    CMap.get g m k = lookupVal m.values (steps g k) := by
  unfold CMap.get findNode lookupVal steps
  rw [walkK_eq_walkP]

theorem afind_eq_none_iff {κ β : Type _} [DecidableEq κ] {l : List (κ × β)} {k : κ} :
    afind l k = none ↔ k ∉ l.map Prod.fst := by
  induction l with
  | nil => simp [afind]
  | cons p t ih =>
    obtain ⟨k1, b1⟩ := p
    by_cases h : k = k1 <;> simp [afind, h, ih]

theorem afind_append {κ β : Type _} [DecidableEq κ] (l1 l2 : List (κ × β)) (q : κ) :
    afind (l1 ++ l2) q = match afind l1 q with
      | some b => some b
      | none => afind l2 q := by
  induction l1 with
  | nil => simp [afind]
  | cons p t ih =>
    obtain ⟨k1, b1⟩ := p
    by_cases h : q = k1 <;> simp [afind, h, ih]

theorem afind_mapRepl {κ β : Type _} [DecidableEq κ] (k : κ) (b : β) :
    ∀ (l : List (κ × β)) (q : κ),
      afind (l.map (fun p => if p.1 = k then (k, b) else p)) q
        = if q = k then (afind l k).map (fun _ => b) else afind l q := by
  intro l
  induction l with
  | nil => intro q; simp [afind]
  | cons p t ih =>
    intro q
    obtain ⟨k1, b1⟩ := p
    rw [List.map_cons]
    by_cases h1 : k1 = k
    · subst h1
      have hh : (if (k1, b1).1 = k1 then (k1, b) else (k1, b1)) = (k1, b) := by simp
      rw [hh]
      by_cases h2 : q = k1
      · subst h2
        simp [afind]
      · simp [afind, h2, ih]
    · have hh : (if (k1, b1).1 = k then (k, b) else (k1, b1)) = (k1, b1) := by
        simp [h1]
      rw [hh]
      by_cases h2 : q = k1
      · subst h2
        simp [afind, h1]
      · simp [afind, h1, h2, Ne.symm h1, ih]

theorem afind_aupd {κ β : Type _} [DecidableEq κ] (l : List (κ × β)) (k : κ) (b : β) (q : κ) :
    afind (aupd l k b) q = if q = k then some b else afind l q := by
  unfold aupd
  by_cases h : (afind l k).isSome
  · rw [if_pos h, afind_mapRepl]
    rcases hk : afind l k with _ | bb
    · rw [hk] at h; simp at h
    · simp [hk]
  · rw [if_neg h, afind_append]
    rcases hq : afind l q with _ | bb
    · by_cases hqk : q = k <;> simp [afind, hqk]
    · by_cases hqk : q = k
      · subst hqk
        rw [hq] at h; simp at h
      · simp [hqk, afind, hq]

theorem afind_arem {κ β : Type _} [DecidableEq κ] (l : List (κ × β)) (k : κ) (q : κ) :
    afind (arem l k) q = if q = k then none else afind l q := by
  induction l with
  | nil => simp [arem, afind]
  | cons p t ih =>
    obtain ⟨k1, b1⟩ := p
    by_cases h1 : k1 = k
    · subst h1
      by_cases h2 : q = k1 <;> simp [arem, afind, List.filter_cons, h2, ih] at ih ⊢ <;> simp [ih]
    · by_cases h2 : q = k1
      · subst h2
        simp [arem, afind, List.filter_cons, h1, Ne.symm h1]
      · simp only [arem, List.filter_cons] at ih ⊢
        simp [afind, h1, h2, bne_iff_ne, ih]

theorem mem_aupd {κ β : Type _} [DecidableEq κ] {l : List (κ × β)} {k : κ} {b : β} {p : κ × β}
    (h : p ∈ aupd l k b) : p = (k, b) ∨ p ∈ l := by
  unfold aupd at h
  split at h
  · rcases List.mem_map.mp h with ⟨q, hq, he⟩
    by_cases hqk : q.1 = k
    · simp [hqk] at he; left; exact he.symm
    · simp [hqk] at he; right; exact he ▸ hq
  · rcases List.mem_append.mp h with h1 | h1
    · right; exact h1
    · left; simpa using h1

theorem mem_arem {κ β : Type _} [DecidableEq κ] {l : List (κ × β)} {k : κ} {p : κ × β}
    (h : p ∈ arem l k) : p ∈ l :=
  List.mem_of_mem_filter h

theorem keys_aupd_nodup {κ β : Type _} [DecidableEq κ] {l : List (κ × β)} (k : κ) (b : β)
    (h : (l.map Prod.fst).Nodup) : ((aupd l k b).map Prod.fst).Nodup := by
  unfold aupd
  split
  · have hkeys : (l.map (fun p => if p.1 = k then (k, b) else p)).map Prod.fst
        = l.map Prod.fst := by
      rw [List.map_map]
      apply List.map_congr_left
      intro p hp
      by_cases hpk : p.1 = k <;> simp [hpk]
    rw [hkeys]
    exact h
  · rename_i hnone
    have hk : k ∉ l.map Prod.fst :=
      afind_eq_none_iff.mp (Option.not_isSome_iff_eq_none.mp hnone)
    rw [List.map_append]
    simp only [List.map_cons, List.map_nil]
    rw [List.nodup_append]
    refine ⟨h, List.nodup_singleton k, ?_⟩
    intro a ha
    simp only [List.mem_singleton]
    intro he
    exact hk (he ▸ ha)

theorem keys_arem_nodup {κ β : Type _} [DecidableEq κ] {l : List (κ × β)} (k : κ)
    (h : (l.map Prod.fst).Nodup) : ((arem l k).map Prod.fst).Nodup :=
  h.sublist ((List.filter_sublist l).map Prod.fst)

theorem aupd_ne_nil {κ β : Type _} [DecidableEq κ] {l : List (κ × β)} {k : κ} {b : β} :
    aupd l k b ≠ [] := by
  unfold aupd
  split
  · rename_i hsome
    intro he
    rcases l with _ | ⟨p, t⟩
    · simp [afind] at hsome
    · simp at he
  · simp

theorem lookupVal_nil {V : Type} (n : Node V) : lookupVal n [] = n.value := rfl

theorem lookupVal_cons {V : Type} (nv : Option V) (nx : List (Sel × List (JsValue × Node V)))
    (s : Sel) (w : JsValue) (r : List Step) :
    lookupVal (Node.mk nv nx) ((s, w) :: r) = (lookup2 nx s w).bind (fun c => lookupVal c r) := by
  cases h : lookup2 nx s w with
  | none => simp [lookupVal, walkP, Node.next, h]
  | some c => simp [lookupVal, walkP, Node.next, h]

theorem lookupVal_dead {V : Type} (p : List Step) :
    lookupVal (Node.mk (none : Option V) []) p = none := by
  cases p with
  | nil => rfl
  | cons hd r =>
    obtain ⟨s, w⟩ := hd
    simp [lookupVal_cons, lookup2, afind]

theorem getD_afind_lookup2 {V : Type} (nx : List (Sel × List (JsValue × Node V)))
    (s : Sel) (w : JsValue) :
    afind ((afind nx s).getD []) w = lookup2 nx s w := by
  cases h : afind nx s <;> simp [lookup2, h, afind]

theorem setP_nil {V : Type} (nv : Option V) (nx : List (Sel × List (JsValue × Node V))) (v : V) :
    setP (Node.mk nv nx) [] v = Node.mk (some v) nx := rfl

theorem setP_cons {V : Type} (nv : Option V) (nx : List (Sel × List (JsValue × Node V)))
    (s : Sel) (w : JsValue) (pr : List Step) (v : V) :
    setP (Node.mk nv nx) ((s, w) :: pr) v
      = Node.mk nv (aupd nx s (aupd ((afind nx s).getD []) w
          (setP ((afind ((afind nx s).getD []) w).getD (Node.mk none [])) pr v))) := rfl

theorem lookup2_aupd_ne {V : Type} {nx : List (Sel × List (JsValue × Node V))} {s s' : Sel}
    {w' : JsValue} {M : List (JsValue × Node V)} (hs : s' ≠ s) :
    lookup2 (aupd nx s M) s' w' = lookup2 nx s' w' := by
  simp [lookup2, afind_aupd, hs]

theorem lookupVal_setP {V : Type} (v : V) :
    ∀ (p : List Step) (n : Node V) (q : List Step),
      lookupVal (setP n p v) q = if q = p then some v else lookupVal n q := by
  intro p
  induction p with
  | nil =>
    intro n q
    cases n with
    | mk nv nx =>
      cases q with
      | nil => simp [setP_nil, lookupVal_nil, Node.value]
      | cons hd r =>
        obtain ⟨s, w⟩ := hd
        rw [setP_nil, if_neg (by simp), lookupVal_cons, lookupVal_cons]
  | cons hd pr ih =>
    obtain ⟨s, w⟩ := hd
    intro n q
    cases n with
    | mk nv nx =>
      cases q with
      | nil =>
        rw [setP_cons, if_neg (by simp), lookupVal_nil, lookupVal_nil]
        rfl
      | cons hd' qr =>
        obtain ⟨s', w'⟩ := hd'
        rw [setP_cons, lookupVal_cons, lookupVal_cons]
        by_cases hs : s' = s
        · subst hs
          have hl : lookup2 (aupd nx s' (aupd ((afind nx s').getD []) w
              (setP ((afind ((afind nx s').getD []) w).getD (Node.mk none [])) pr v))) s' w'
                = afind (aupd ((afind nx s').getD []) w
                    (setP ((afind ((afind nx s').getD []) w).getD (Node.mk none [])) pr v)) w' := by
            simp [lookup2, afind_aupd]
          rw [hl, afind_aupd]
          by_cases hw : w' = w
          · subst hw
            rw [if_pos rfl]
            simp only [Option.some_bind]
            rw [ih]
            by_cases hq : qr = pr
            · subst hq
              simp
            · rw [if_neg hq, if_neg (by simp [hq])]
              rw [show lookup2 nx s' w' = afind ((afind nx s').getD []) w' from
                (getD_afind_lookup2 nx s' w').symm]
              cases hc : afind ((afind nx s').getD []) w' with
              | none => simp [hc, lookupVal_dead]
              | some c => simp [hc]
          · rw [if_neg hw,
              show afind ((afind nx s').getD []) w' = lookup2 nx s' w' from
                getD_afind_lookup2 nx s' w',
              if_neg (by simp [hw])]
        · rw [lookup2_aupd_ne hs, if_neg (by simp [hs])]

theorem dead_node_eq {V : Type} {c : Node V}
    (h : (c.value.isNone && c.next.isEmpty) = true) : c = Node.mk none [] := by
  cases c with
  | mk cv cnx =>
    simp only [Node.value, Node.next, Bool.and_eq_true, Option.isNone_iff_eq_none,
      List.isEmpty_iff] at h
    rw [h.1, h.2]


theorem delP_snd {V : Type} : ∀ (p : List Step) (n : Node V),
    (delP n p).2 = (lookupVal n p).isSome := by
  intro p
  induction p with
  | nil =>
    intro n
    cases n with
    | mk nv nx => cases nv <;> simp [delP, lookupVal_nil, Node.value]
  | cons hd rest ih =>
    obtain ⟨s, w⟩ := hd
    intro n
    cases n with
    | mk nv nx =>
      rw [lookupVal_cons]
      cases h1 : afind nx s with
      | none => simp [delP, Node.next, h1, lookup2]
      | some m2 =>
        cases h2 : afind m2 w with
        | none => simp [delP, Node.next, h1, h2, lookup2]
        | some c =>
          have hl : lookup2 nx s w = some c := by simp [lookup2, h1, h2]
          rw [hl]
          simp only [delP, Node.next, h1, h2, Option.some_bind]
          rw [← ih c]
          cases hr : (delP c rest).2 <;> simp [hr]

theorem lookupVal_delP {V : Type} : ∀ (p : List Step) (n : Node V) (q : List Step),
    lookupVal (delP n p).1 q = if q = p then none else lookupVal n q := by
  intro p
  induction p with
  | nil =>
    intro n q
    cases n with
    | mk nv nx =>
      cases nv with
      | none =>
        have h : delP (Node.mk (none : Option V) nx) [] = (Node.mk none nx, false) := rfl
        rw [h]
        cases q with
        | nil => simp [lookupVal_nil, Node.value]
        | cons hd r => rw [if_neg (by simp)]
      | some v0 =>
        have h : delP (Node.mk (some v0) nx) [] = (Node.mk none nx, true) := rfl
        rw [h]
        cases q with
        | nil => simp [lookupVal_nil, Node.value]
        | cons hd r =>
          obtain ⟨s', w'⟩ := hd
          rw [if_neg (by simp), lookupVal_cons, lookupVal_cons]
  | cons hd pr ih =>
    obtain ⟨s, w⟩ := hd
    intro n q
    cases n with
    | mk nv nx =>
      cases h1 : afind nx s with
      | none =>
        have hp : lookupVal (Node.mk nv nx) ((s, w) :: pr) = none := by
          simp [lookupVal_cons, lookup2, h1]
        have hdel : delP (Node.mk nv nx) ((s, w) :: pr) = (Node.mk nv nx, false) := by
          simp [delP, Node.next, h1]
        rw [hdel]
        by_cases hq : q = (s, w) :: pr
        · subst hq; simp [hp]
        · rw [if_neg hq]
      | some m2 =>
        cases h2 : afind m2 w with
        | none =>
          have hp : lookupVal (Node.mk nv nx) ((s, w) :: pr) = none := by
            simp [lookupVal_cons, lookup2, h1, h2]
          have hdel : delP (Node.mk nv nx) ((s, w) :: pr) = (Node.mk nv nx, false) := by
            simp [delP, Node.next, h1, h2]
          rw [hdel]
          by_cases hq : q = (s, w) :: pr
          · subst hq; simp [hp]
          · rw [if_neg hq]
        | some c =>
          have hl : lookup2 nx s w = some c := by simp [lookup2, h1, h2]
          cases hr : (delP c pr).2 with
          | false =>
            have hp : lookupVal (Node.mk nv nx) ((s, w) :: pr) = none := by
              rw [lookupVal_cons, hl, Option.some_bind, ← Option.not_isSome_iff_eq_none,
                ← delP_snd, hr]
              simp
            have hdel : delP (Node.mk nv nx) ((s, w) :: pr) = (Node.mk nv nx, false) := by
              simp [delP, Node.next, h1, h2, hr]
            rw [hdel]
            by_cases hq : q = (s, w) :: pr
            · subst hq; simp [hp]
            · rw [if_neg hq]
          | true =>
            have hdel : delP (Node.mk nv nx) ((s, w) :: pr)
                = (Node.mk nv (if (if ((delP c pr).1.value.isNone
                        && (delP c pr).1.next.isEmpty) = true
                      then arem m2 w else aupd m2 w (delP c pr).1).isEmpty = true
                    then arem nx s
                    else aupd nx s (if ((delP c pr).1.value.isNone
                        && (delP c pr).1.next.isEmpty) = true
                      then arem m2 w else aupd m2 w (delP c pr).1)), true) := by
              simp [delP, Node.next, Node.value, h1, h2, hr]
            rw [hdel]
            cases q with
            | nil =>
              rw [if_neg (show ¬(([] : List Step) = (s, w) :: pr) by simp),
                lookupVal_nil, lookupVal_nil]
              rfl
            | cons hd' qr =>
              obtain ⟨s', w'⟩ := hd'
              rw [lookupVal_cons, lookupVal_cons]
              by_cases hs : s' = s
              case neg =>
                rw [if_neg (show ¬((s', w') :: qr = (s, w) :: pr) by simp [hs])]
                have hnext : ∀ (M : List (JsValue × Node V)),
                    lookup2 (if M.isEmpty = true then arem nx s else aupd nx s M) s' w'
                      = lookup2 nx s' w' := by
                  intro M
                  split
                  · simp [lookup2, afind_arem, hs]
                  · exact lookup2_aupd_ne hs
                rw [hnext]
              case pos =>
                subst hs
                by_cases hdead : ((delP c pr).1.value.isNone
                    && (delP c pr).1.next.isEmpty) = true
                · rw [if_pos hdead]
                  have hcd : lookupVal (delP c pr).1 qr = none := by
                    rw [dead_node_eq hdead]; exact lookupVal_dead qr
                  by_cases hrem : (arem m2 w).isEmpty = true
                  · rw [if_pos hrem]
                    have hnone : lookup2 (arem nx s') s' w' = none := by
                      simp [lookup2, afind_arem]
                    rw [hnone, Option.none_bind]
                    by_cases hw : w' = w
                    · subst hw
                      by_cases hq : qr = pr
                      · subst hq; rw [if_pos rfl]
                      · rw [if_neg (show ¬((s', w') :: qr = (s', w') :: pr) by simp [hq]),
                          hl, Option.some_bind]
                        have h5 := ih c qr
                        rw [if_neg hq] at h5
                        rw [← h5, hcd]
                    · rw [if_neg (show ¬((s', w') :: qr = (s', w) :: pr) by simp [hw])]
                      have hm : afind m2 w' = none := by
                        have h6 := afind_arem m2 w w'
                        rw [List.isEmpty_iff.mp hrem] at h6
                        rw [if_neg hw] at h6
                        simpa [afind] using h6.symm
                      simp [lookup2, h1, hm]
                  · rw [if_neg hrem]
                    have hlk : lookup2 (aupd nx s' (arem m2 w)) s' w'
                        = afind (arem m2 w) w' := by
                      simp [lookup2, afind_aupd]
                    rw [hlk, afind_arem]
                    by_cases hw : w' = w
                    · subst hw
                      rw [if_pos rfl, Option.none_bind]
                      by_cases hq : qr = pr
                      · subst hq; rw [if_pos rfl]
                      · rw [if_neg (show ¬((s', w') :: qr = (s', w') :: pr) by simp [hq]),
                          hl, Option.some_bind]
                        have h5 := ih c qr
                        rw [if_neg hq] at h5
                        rw [← h5, hcd]
                    · rw [if_neg hw,
                        if_neg (show ¬((s', w') :: qr = (s', w) :: pr) by simp [hw])]
                      simp [lookup2, h1]
                · rw [if_neg hdead]
                  have hne : ¬((aupd m2 w (delP c pr).1).isEmpty = true) := fun he =>
                    aupd_ne_nil (List.isEmpty_iff.mp he)
                  rw [if_neg hne]
                  have hlk : lookup2 (aupd nx s' (aupd m2 w (delP c pr).1)) s' w'
                      = afind (aupd m2 w (delP c pr).1) w' := by
                    simp [lookup2, afind_aupd]
                  rw [hlk, afind_aupd]
                  by_cases hw : w' = w
                  · subst hw
                    rw [if_pos rfl, Option.some_bind, ih c qr]
                    by_cases hq : qr = pr
                    · subst hq
                      rw [if_pos rfl, if_pos rfl]
                    · rw [if_neg hq,
                        if_neg (show ¬((s', w') :: qr = (s', w') :: pr) by simp [hq]),
                        hl, Option.some_bind]
                  · rw [if_neg hw,
                      if_neg (show ¬((s', w') :: qr = (s', w) :: pr) by simp [hw])]
                    simp [lookup2, h1]

theorem set_values {V : Type} (g : KeyGen) (m : CMap V) (k : CKey) (v : V) :
    (CMap.set g m k v).values = setP m.values (steps g k) v := by
  unfold CMap.set steps
  exact setK_eq_setP k v (g k) m.values

theorem get_set_self {V : Type} (g : KeyGen) (m : CMap V) (k : CKey) (v : V) :
    CMap.get g (CMap.set g m k v) k = some v := by
  rw [get_eq_lookupVal, set_values, lookupVal_setP, if_pos rfl]

/-- C7: `set` hands back the map (in this pure state-passing embedding, the
updated map value — the rendering of `return this`), so calls chain; and a
second `set` of the same key overwrites the stored value: after
`set(k, v1); set(k, v2)` a `get(k)` returns `v2` (last write wins), for every
strategy, map state, key and pair of values. -/
theorem cmap_set_last_write_wins (V : Type) (g : KeyGen) (m : CMap V) (k : CKey) (v1 v2 : V) :
    CMap.get g (CMap.set g m k v1) k = some v1
    ∧ CMap.get g (CMap.set g (CMap.set g m k v1) k v2) k = some v2 :=
  ⟨get_set_self g m k v1, get_set_self g (CMap.set g m k v1) k v2⟩

/-- The compound key `{a: <a>, b: <b>}` (two enumerable string-named fields). -/
def kab (a b : Int) : CKey := [⟨.str "a", .num a, true⟩, ⟨.str "b", .num b, true⟩]

/-- The compound key `{a: <a>}`. -/
def ka (a : Int) : CKey := [⟨.str "a", .num a, true⟩]

/-- C2: structural prefixes do not interfere.  After `set({a:1,b:2}, x)` and
`set({a:1,b:3}, y)` on the same (empty) map under the default strategy,
`get({a:1})` is absent (`none`, i.e. `undefined`), `get({a:1,b:2})` is `x`,
and `get({a:1,b:3})` is `y`. -/
theorem cmap_prefix_independence (V : Type) (x y : V) :
    CMap.get asValues
        (CMap.set asValues (CMap.set asValues (emptyCMap V) (kab 1 2) x) (kab 1 3) y) (ka 1)
      = none
    ∧ CMap.get asValues
        (CMap.set asValues (CMap.set asValues (emptyCMap V) (kab 1 2) x) (kab 1 3) y) (kab 1 2)
      = some x
    ∧ CMap.get asValues
        (CMap.set asValues (CMap.set asValues (emptyCMap V) (kab 1 2) x) (kab 1 3) y) (kab 1 3)
      = some y :=
  ⟨rfl, rfl, rfl⟩

/-- C10: at the public interface a stored `undefined` is indistinguishable
from an absent key: `get` after `set(k, undefined)` produces the JavaScript
value `undefined`, exactly what `get` produces on a never-set key (the empty
map), even though internally the terminal's value slot holds
`some undefined` rather than the `notPresent` sentinel (`none`). -/
theorem cmap_get_undefined_conflation (m : CMap JsValue) (k : CKey) :
    (CMap.get asValues (CMap.set asValues m k JsValue.undefined) k).getD JsValue.undefined
      = JsValue.undefined
    ∧ CMap.get asValues (CMap.set asValues m k JsValue.undefined) k = some JsValue.undefined
    ∧ CMap.get asValues (emptyCMap JsValue) k = none
    ∧ (CMap.get asValues (emptyCMap JsValue) k).getD JsValue.undefined = JsValue.undefined := by
  have h1 := get_set_self asValues m k JsValue.undefined
  have h2 : CMap.get asValues (emptyCMap JsValue) k = none := by
    rw [get_eq_lookupVal]
    exact lookupVal_dead (steps asValues k)
  exact ⟨by rw [h1]; rfl, h1, h2, by rw [h2]; rfl⟩

/-- The loop of `findNode` written as an explicit state-passing function: the
map state is threaded through every iteration alongside the `node` cursor. -/
def findGoS {V : Type} : Node V → CKey → List Sel → CMap V → Option (Node V) × CMap V
  | n, _, [], st => (some n, st)
  | n, k, s :: rest, st =>
    match lookup2 n.next s (kget k s) with
    | none => (none, st)
    | some c => findGoS c k rest st

/-- `findNode` as a state transformer on the map. -/
def findNodeS {V : Type} (g : KeyGen) (m : CMap V) (k : CKey) : Option (Node V) × CMap V :=
  findGoS m.values k (g k) m

/-- `get` as a state transformer on the map. -/
def getS {V : Type} (g : KeyGen) (m : CMap V) (k : CKey) : Option V × CMap V :=
  let r := findNodeS g m k
  (match r.1 with
    | none => none
    | some n => n.value, r.2)

theorem findGoS_eq {V : Type} (k : CKey) : ∀ (seq : List Sel) (n : Node V) (st : CMap V),
    findGoS n k seq st = (walkK n k seq, st) := by
  intro seq
  induction seq with
  | nil => intro n st; rfl
  | cons s rest ih =>
    intro n st
    simp only [findGoS, walkK]
    cases lookup2 n.next s (kget k s) <;> simp [ih]

/-- C9: reads do not mutate.  `findNode` (and so `get`) run as explicit state
transformers return the map state exactly as given, for every strategy, map
and key — the walk only ever reads `branch[selector][value]` and creates
nothing.  Both strategies are functions of the key's field list alone
(deterministic and side-effect-free), and no operation mutates the key: keys
enter every operation as immutable values. -/
theorem cmap_reads_pure (V : Type) (g : KeyGen) (m : CMap V) (k : CKey) :
    findNodeS g m k = (findNode g m k, m)
    ∧ getS g m k = (CMap.get g m k, m)
    ∧ (∀ k1 k2 : CKey, k1 = k2 → asValues k1 = asValues k2 ∧ asObjects k1 = asObjects k2) := by
  refine ⟨findGoS_eq k (g k) m.values m, ?_, ?_⟩
  · unfold getS findNodeS CMap.get findNode
    rw [findGoS_eq]
  · intro k1 k2 h
    exact ⟨congrArg asValues h, congrArg asObjects h⟩

theorem lexCmp_le_trans {a b c : List Char} (h1 : lexCmp a b ≤ 0) (h2 : lexCmp b c ≤ 0) :
    lexCmp a c ≤ 0 := by
  rcases lt_or_eq_of_le h1 with h1' | h1'
  · rcases lt_or_eq_of_le h2 with h2' | h2'
    · exact le_of_lt (lexCmp_lt_trans h1' h2')
    · rw [(lexCmp_zero_iff b c).mp h2'] at h1
      exact h1
  · rw [(lexCmp_zero_iff a b).mp h1']
    exact h2

theorem wcmpInt_le_trans {a b c : JsValue} (hab : rankv a = rankv b) (hbc : rankv b = rankv c)
    (h1 : wcmpInt a b ≤ 0) (h2 : wcmpInt b c ≤ 0) : wcmpInt a c ≤ 0 := by
  cases a <;> cases b <;> cases c <;>
    simp only [rankv, wcmpInt] at hab hbc h1 h2 ⊢ <;>
    first
      | omega
      | exact lexCmp_le_trans h1 h2

theorem scmp_le_trans {a b c : JsValue} (ha : IsScalar a) (hb : IsScalar b) (hc : IsScalar c)
    (h1 : scmp a b ≤ 0) (h2 : scmp b c ≤ 0) : scmp a c ≤ 0 := by
  rw [scmp_eq ha hb] at h1
  rw [scmp_eq hb hc] at h2
  rw [scmp_eq ha hc]
  by_cases hab : rankv a = rankv b
  · rw [if_pos hab] at h1
    by_cases hbc : rankv b = rankv c
    · rw [if_pos hbc] at h2
      rw [if_pos (hab.trans hbc)]
      exact wcmpInt_le_trans hab hbc h1 h2
    · rw [if_neg hbc] at h2
      rw [if_neg (fun hac => hbc (hab.symm.trans hac))]
      omega
  · rw [if_neg hab] at h1
    by_cases hbc : rankv b = rankv c
    · rw [if_pos hbc] at h2
      rw [if_neg (fun hac => hab (hac.trans hbc.symm))]
      omega
    · rw [if_neg hbc] at h2
      by_cases hac : rankv a = rankv c
      · rw [if_pos hac]
        have h3 : rankv a < rankv b := by omega
        have h4 : rankv b < rankv c := by omega
        omega
      · rw [if_neg hac]
        omega

theorem selToJs_scalar (a : Sel) : IsScalar a.toJs := by
  cases a <;> simp [Sel.toJs, IsScalar, rankScalarType]

theorem selLe_total (a b : Sel) : (selLe a b || selLe b a) = true := by
  have h := scmp_neg (selToJs_scalar a) (selToJs_scalar b)
  simp only [selLe, Bool.or_eq_true, decide_eq_true_eq]
  omega

theorem selLe_trans (a b c : Sel) (h1 : selLe a b = true) (h2 : selLe b c = true) :
    selLe a c = true := by
  simp only [selLe, decide_eq_true_eq] at h1 h2 ⊢
  exact scmp_le_trans (selToJs_scalar a) (selToJs_scalar b) (selToJs_scalar c) h1 h2

theorem sorted_perm_unique {α : Type _} (le : α → α → Bool) :
    ∀ (l1 l2 : List α), l1.Perm l2 →
      (∀ a ∈ l1, ∀ b ∈ l1, le a b = true → le b a = true → a = b) →
      l1.Pairwise (fun a b => le a b = true) → l2.Pairwise (fun a b => le a b = true) →
      l1 = l2 := by
  intro l1
  induction l1 with
  | nil =>
    intro l2 hp _ _ _
    exact (List.perm_nil.mp hp.symm).symm ▸ rfl
  | cons a t1 ih =>
    intro l2 hp hanti hs1 hs2
    cases l2 with
    | nil => exact absurd hp (by simp)
    | cons b t2 =>
      by_cases hab : a = b
      · subst hab
        have hpt : t1.Perm t2 := hp.cons_inv
        have hanti' : ∀ x ∈ t1, ∀ y ∈ t1, le x y = true → le y x = true → x = y := by
          intro x hx y hy
          exact hanti x (List.mem_cons_of_mem a hx) y (List.mem_cons_of_mem a hy)
        rw [ih t2 hpt hanti' (List.Pairwise.sublist (List.sublist_cons_self a t1) hs1)
          (List.Pairwise.sublist (List.sublist_cons_self a t2) hs2)]
      · have hat2 : a ∈ t2 := by
          have : a ∈ b :: t2 := hp.mem_iff.mp (List.mem_cons_self a t1)
          rcases List.mem_cons.mp this with he | hm
          · exact absurd he hab
          · exact hm
        have hbt1 : b ∈ t1 := by
          have : b ∈ a :: t1 := hp.mem_iff.mpr (List.mem_cons_self b t2)
          rcases List.mem_cons.mp this with he | hm
          · exact absurd he.symm hab
          · exact hm
        have hle1 : le a b = true := (List.pairwise_cons.mp hs1).1 b hbt1
        have hle2 : le b a = true := (List.pairwise_cons.mp hs2).1 a hat2
        exact absurd
          (hanti a (List.mem_cons_self a t1) b (List.mem_cons_of_mem a hbt1) hle1 hle2) hab

/-- The (selector, value) pairs of a key — its content as a set of fields. -/
def pairsOf (k : CKey) : List (Sel × JsValue) :=
  k.map (fun f => (f.sel, f.val))

theorem afind_eq_some_of_nodup {κ β : Type _} [DecidableEq κ] :
    ∀ {l : List (κ × β)}, (l.map Prod.fst).Nodup →
      ∀ {k : κ} {b : β}, ((k, b) ∈ l ↔ afind l k = some b) := by
  intro l
  induction l with
  | nil => intro _ k b; simp [afind]
  | cons p t ih =>
    intro hnd k b
    obtain ⟨k1, b1⟩ := p
    simp only [List.map_cons, List.nodup_cons] at hnd
    obtain ⟨hk1, hnd⟩ := hnd
    by_cases hk : k = k1
    · subst hk
      rw [show afind ((k, b1) :: t) k = some b1 from by simp [afind]]
      constructor
      · intro hm
        rcases List.mem_cons.mp hm with he | hm2
        · rw [Prod.mk.injEq] at he
          rw [he.2]
        · exact absurd (List.mem_map_of_mem Prod.fst hm2) hk1
      · intro he
        rw [Option.some.injEq] at he
        rw [← he]
        exact List.mem_cons_self _ _
    · rw [show afind ((k1, b1) :: t) k = afind t k from by simp [afind, hk]]
      rw [← ih hnd]
      simp [List.mem_cons, Prod.mk.injEq, hk]

theorem pairsOf_keys (k : CKey) : (pairsOf k).map Prod.fst = k.map KeyField.sel := by
  simp [pairsOf, List.map_map, Function.comp]

theorem afind_pairsOf (k : CKey) (s : Sel) :
    afind (pairsOf k) s = (findField k s).map KeyField.val := by
  induction k with
  | nil => simp [pairsOf, afind, findField]
  | cons f t ih =>
    by_cases hs : s = f.sel
    · subst hs
      simp [pairsOf, afind, findField, List.find?_cons]
    · have hbeq : (f.sel == s) = false := by simp [Ne.symm hs]
      simp only [pairsOf, List.map_cons, afind, if_neg hs, findField, List.find?_cons, hbeq]
      exact ih

theorem kget_eq_of_pairs_perm {k1 k2 : CKey} (h1 : (k1.map KeyField.sel).Nodup)
    (h2 : (k2.map KeyField.sel).Nodup) (hp : (pairsOf k1).Perm (pairsOf k2)) (s : Sel) :
    kget k1 s = kget k2 s := by
  have hn1 : ((pairsOf k1).map Prod.fst).Nodup := by rw [pairsOf_keys]; exact h1
  have hn2 : ((pairsOf k2).map Prod.fst).Nodup := by rw [pairsOf_keys]; exact h2
  have hsame : afind (pairsOf k1) s = afind (pairsOf k2) s := by
    cases hf : afind (pairsOf k1) s with
    | none =>
      cases hg : afind (pairsOf k2) s with
      | none => rfl
      | some b =>
        have hm : (s, b) ∈ pairsOf k1 := hp.mem_iff.mpr ((afind_eq_some_of_nodup hn2).mpr hg)
        rw [(afind_eq_some_of_nodup hn1).mp hm] at hf
        exact absurd hf (by simp)
    | some b =>
      have hm : (s, b) ∈ pairsOf k2 := hp.mem_iff.mp ((afind_eq_some_of_nodup hn1).mpr hf)
      exact ((afind_eq_some_of_nodup hn2).mp hm).symm
  have hk : ∀ (k : CKey), kget k s = ((afind (pairsOf k) s).getD JsValue.undefined) := by
    intro k
    rw [afind_pairsOf]
    unfold kget
    cases findField k s <;> rfl
  rw [hk k1, hk k2, hsame]

theorem mem_asObjects_sub {k : CKey} {s : Sel} (h : s ∈ asObjects k) :
    s ∈ k.map KeyField.sel := by
  rcases List.mem_append.mp h with h1 | h1
  · exact mem_getOwnPropertyNames_sub (List.mem_of_mem_filter h1)
  · exact mem_getOwnPropertySymbols_sub (List.mem_of_mem_filter h1)

theorem fields_of_pairs (k : CKey) (he : ∀ f ∈ k, f.enumerable = true) :
    (pairsOf k).map (fun p => (⟨p.1, p.2, true⟩ : KeyField)) = k := by
  induction k with
  | nil => rfl
  | cons f t ih =>
    have hf : f.enumerable = true := he f (List.mem_cons_self f t)
    have hfe : (⟨f.sel, f.val, true⟩ : KeyField) = f := by
      cases f with
      | mk s v e => simp at hf; rw [hf]
    rw [show pairsOf (f :: t) = (f.sel, f.val) :: pairsOf t from rfl, List.map_cons]
    rw [hfe, ih (fun g hg => he g (List.mem_cons_of_mem f hg))]

theorem steps_eq_of_same_pairs {k1 k2 : CKey}
    (h1 : (k1.map KeyField.sel).Nodup) (h2 : (k2.map KeyField.sel).Nodup)
    (he1 : ∀ f ∈ k1, f.enumerable = true) (he2 : ∀ f ∈ k2, f.enumerable = true)
    (hset : (pairsOf k1).toFinset = (pairsOf k2).toFinset)
    (htie : ∀ s1 ∈ k1.map KeyField.sel, ∀ s2 ∈ k1.map KeyField.sel,
        scmp s1.toJs s2.toJs = 0 → s1 = s2) :
    steps asValues k1 = steps asValues k2 := by
  have np1 : (pairsOf k1).Nodup := List.Nodup.of_map Prod.fst (by rw [pairsOf_keys]; exact h1)
  have np2 : (pairsOf k2).Nodup := List.Nodup.of_map Prod.fst (by rw [pairsOf_keys]; exact h2)
  have hperm : (pairsOf k1).Perm (pairsOf k2) :=
    List.perm_of_nodup_nodup_toFinset_eq np1 np2 hset
  have hkperm : k1.Perm k2 := by
    rw [← fields_of_pairs k1 he1, ← fields_of_pairs k2 he2]
    exact hperm.map _
  have hobj : (asObjects k1).Perm (asObjects k2) := by
    rw [asObjects_eq k1 h1, asObjects_eq k2 h2]
    exact ((hkperm.filter _).map _).append ((hkperm.filter _).map _)
  have hsv : asValues k1 = asValues k2 := by
    have hps : (asValues k1).Perm (asValues k2) :=
      ((List.mergeSort_perm (asObjects k1) selLe).trans hobj).trans
        (List.mergeSort_perm (asObjects k2) selLe).symm
    have hanti : ∀ a ∈ asValues k1, ∀ b ∈ asValues k1,
        selLe a b = true → selLe b a = true → a = b := by
      intro a hma b hmb hab hba
      have hma' : a ∈ k1.map KeyField.sel :=
        mem_asObjects_sub ((List.mergeSort_perm (asObjects k1) selLe).mem_iff.mp hma)
      have hmb' : b ∈ k1.map KeyField.sel :=
        mem_asObjects_sub ((List.mergeSort_perm (asObjects k1) selLe).mem_iff.mp hmb)
      simp only [selLe, decide_eq_true_eq] at hab hba
      have hneg := scmp_neg (selToJs_scalar a) (selToJs_scalar b)
      exact htie a hma' b hmb' (by omega)
    exact sorted_perm_unique selLe (asValues k1) (asValues k2) hps hanti
      (List.sorted_mergeSort selLe_trans selLe_total (asObjects k1))
      (List.sorted_mergeSort selLe_trans selLe_total (asObjects k2))
  unfold steps
  rw [hsv]
  exact List.map_congr_left (fun s _ => by
    rw [kget_eq_of_pairs_perm h1 h2 hperm s])

/-- C1 (amended): identity is independent of field order — with the proviso
the counterexample `cmap_field_order_counterexample` forces.  Under the
default sorted strategy, for all compound keys `k1`, `k2` with distinct,
enumerable selectors, identical (selector, value) pair sets, and in which the
comparator separates the selectors (no two distinct selectors of the key tie,
i.e. no two distinct symbol selectors share a printable rendering),
`set(k1, v)` followed by `get(k2)` returns `v` on every starting map. -/
theorem cmap_sorted_strategy_field_order (V : Type) (m : CMap V) (k1 k2 : CKey) (v : V)
    (h1 : (k1.map KeyField.sel).Nodup) (h2 : (k2.map KeyField.sel).Nodup)
    (he1 : ∀ f ∈ k1, f.enumerable = true) (he2 : ∀ f ∈ k2, f.enumerable = true)
    (hset : (pairsOf k1).toFinset = (pairsOf k2).toFinset)
    (htie : ∀ s1 ∈ k1.map KeyField.sel, ∀ s2 ∈ k1.map KeyField.sel,
        scmp s1.toJs s2.toJs = 0 → s1 = s2) :
    CMap.get asValues (CMap.set asValues m k1 v) k2 = some v := by
  have hst := steps_eq_of_same_pairs h1 h2 he1 he2 hset htie
  rw [get_eq_lookupVal, set_values, ← hst, lookupVal_setP, if_pos rfl]

theorem cmap_sorted_strategy_field_order_witness :
    CMap.get asValues (CMap.set asValues (emptyCMap Nat) (kab 1 2) 7)
        [⟨.str "b", .num 2, true⟩, ⟨.str "a", .num 1, true⟩] = some 7 :=
  cmap_sorted_strategy_field_order Nat (emptyCMap Nat) (kab 1 2)
    [⟨.str "b", .num 2, true⟩, ⟨.str "a", .num 1, true⟩] 7
    (by decide) (by decide) (by decide) (by decide) (by decide) (by decide)

/-- The key `{[s0]: 1, [s1]: 2}` where `s0`, `s1` are distinct symbols that
share the description "s" (so their printable renderings tie). -/
def symKeyA : CKey := [⟨.sym 0 "s", .num 1, true⟩, ⟨.sym 1 "s", .num 2, true⟩]

/-- The same two fields declared in the opposite order. -/
def symKeyB : CKey := [⟨.sym 1 "s", .num 2, true⟩, ⟨.sym 0 "s", .num 1, true⟩]

/-- C1 (counterexample to the claim as stated): `symKeyA` and `symKeyB` have
identical (selector, value) pair sets and differ only in field declaration
order, yet under the default sorted strategy `set(symKeyA, 42)` followed by
`get(symKeyB)` returns `undefined` (`none`), not 42.  The sorted strategy
orders the two symbol selectors by their printable rendering `Symbol(s)`,
which ties, so the stable sort leaves each key's own declaration order in
place and the two keys linearize to different sequences. -/
theorem cmap_field_order_counterexample :
    (pairsOf symKeyA).toFinset = (pairsOf symKeyB).toFinset
    ∧ symKeyA ≠ symKeyB
    ∧ CMap.get asValues (CMap.set asValues (emptyCMap Nat) symKeyA 42) symKeyB = none
    ∧ ¬(CMap.get asValues (CMap.set asValues (emptyCMap Nat) symKeyA 42) symKeyB
        = some 42) :=
  ⟨by decide, by decide, rfl, by decide⟩

theorem afind_mem {κ β : Type _} [DecidableEq κ] :
    ∀ {l : List (κ × β)} {k : κ} {b : β}, afind l k = some b → (k, b) ∈ l := by
  intro l
  induction l with
  | nil => intro k b h; simp [afind] at h
  | cons p t ih =>
    intro k b h
    obtain ⟨k1, b1⟩ := p
    by_cases hk : k = k1
    · subst hk
      rw [show afind ((k, b1) :: t) k = some b1 from by simp [afind]] at h
      rw [Option.some.injEq] at h
      rw [← h]
      exact List.mem_cons_self _ _
    · simp only [afind, if_neg hk] at h
      exact List.mem_cons_of_mem _ (ih h)

/-- The spec's structural invariant: no reachable child node is "dead weight"
(absent value slot and empty branch table); pruning exists to maintain it. -/
inductive NoDead {V : Type} : Node V → Prop where
  | mk (v : Option V) (nx : List (Sel × List (JsValue × Node V)))
      (hlive : ∀ br ∈ nx, ∀ vb ∈ br.2, (vb.2 : Node V).value.isSome = true ∨ vb.2.next ≠ [])
      (hrec : ∀ br ∈ nx, ∀ vb ∈ br.2, NoDead vb.2) : NoDead (Node.mk v nx)

theorem noDead_empty {V : Type} : NoDead (Node.mk (none : Option V) []) :=
  NoDead.mk none [] (by simp) (by simp)

theorem setP_not_dead {V : Type} (v : V) : ∀ (p : List Step) (n : Node V),
    (setP n p v).value.isSome = true ∨ (setP n p v).next ≠ [] := by
  intro p n
  cases n with
  | mk nv nx =>
    cases p with
    | nil => left; rw [setP_nil]; rfl
    | cons hd pr =>
      obtain ⟨s, w⟩ := hd
      right
      rw [setP_cons]
      exact aupd_ne_nil

theorem noDead_setP {V : Type} (v : V) : ∀ (p : List Step) (n : Node V),
    NoDead n → NoDead (setP n p v) := by
  intro p
  induction p with
  | nil =>
    intro n hn
    cases n with
    | mk nv nx =>
      rw [setP_nil]
      cases hn with
      | mk _ _ hlive hrec => exact NoDead.mk _ _ hlive hrec
  | cons hd pr ih =>
    obtain ⟨s, w⟩ := hd
    intro n hn
    cases n with
    | mk nv nx =>
      cases hn with
      | mk _ _ hlive hrec =>
        have hm2sub : ∀ vb ∈ ((afind nx s).getD []),
            ((vb.2 : Node V).value.isSome = true ∨ vb.2.next ≠ []) ∧ NoDead vb.2 := by
          rcases hm : afind nx s with _ | m2
          · intro vb hvb
            simp at hvb
          · intro vb hvb
            simp only [Option.getD] at hvb
            exact ⟨hlive (s, m2) (afind_mem hm) vb hvb,
              hrec (s, m2) (afind_mem hm) vb hvb⟩
        have hchild : NoDead ((afind ((afind nx s).getD []) w).getD (Node.mk none [])) := by
          rcases hc : afind ((afind nx s).getD []) w with _ | c
          · exact noDead_empty
          · simp only [Option.getD]
            exact (hm2sub (w, c) (afind_mem hc)).2
        rw [setP_cons]
        refine NoDead.mk _ _ ?_ ?_
        · intro br hbr vb hvb
          rcases mem_aupd hbr with he | hold
          · subst he
            rcases mem_aupd hvb with he2 | hold2
            · subst he2
              exact setP_not_dead v pr _
            · exact (hm2sub vb hold2).1
          · exact hlive br hold vb hvb
        · intro br hbr vb hvb
          rcases mem_aupd hbr with he | hold
          · subst he
            rcases mem_aupd hvb with he2 | hold2
            · subst he2
              exact ih _ hchild
            · exact (hm2sub vb hold2).2
          · exact hrec br hold vb hvb

theorem noDead_delP {V : Type} : ∀ (p : List Step) (n : Node V),
    NoDead n → NoDead ((delP n p).1) := by
  intro p
  induction p with
  | nil =>
    intro n hn
    cases n with
    | mk nv nx =>
      cases nv with
      | none => exact hn
      | some v0 =>
        cases hn with
        | mk _ _ hlive hrec => exact NoDead.mk _ _ hlive hrec
  | cons hd pr ih =>
    obtain ⟨s, w⟩ := hd
    intro n hn
    cases n with
    | mk nv nx =>
      cases hn with
      | mk _ _ hlive hrec =>
        cases h1 : afind nx s with
        | none =>
          have hdel : delP (Node.mk nv nx) ((s, w) :: pr) = (Node.mk nv nx, false) := by
            simp [delP, Node.next, h1]
          rw [hdel]
          exact NoDead.mk _ _ hlive hrec
        | some m2 =>
          cases h2 : afind m2 w with
          | none =>
            have hdel : delP (Node.mk nv nx) ((s, w) :: pr) = (Node.mk nv nx, false) := by
              simp [delP, Node.next, h1, h2]
            rw [hdel]
            exact NoDead.mk _ _ hlive hrec
          | some c =>
            have hcn : NoDead c := hrec (s, m2) (afind_mem h1) (w, c) (afind_mem h2)
            cases hr : (delP c pr).2 with
            | false =>
              have hdel : delP (Node.mk nv nx) ((s, w) :: pr) = (Node.mk nv nx, false) := by
                simp [delP, Node.next, h1, h2, hr]
              rw [hdel]
              exact NoDead.mk _ _ hlive hrec
            | true =>
              have hdel : delP (Node.mk nv nx) ((s, w) :: pr)
                  = (Node.mk nv (if (if ((delP c pr).1.value.isNone
                          && (delP c pr).1.next.isEmpty) = true
                        then arem m2 w else aupd m2 w (delP c pr).1).isEmpty = true
                      then arem nx s
                      else aupd nx s (if ((delP c pr).1.value.isNone
                          && (delP c pr).1.next.isEmpty) = true
                        then arem m2 w else aupd m2 w (delP c pr).1)), true) := by
                simp [delP, Node.next, Node.value, h1, h2, hr]
              rw [hdel]
              have hm2mem : ∀ vb ∈ (if ((delP c pr).1.value.isNone
                  && (delP c pr).1.next.isEmpty) = true
                then arem m2 w else aupd m2 w (delP c pr).1),
                  ((vb.2 : Node V).value.isSome = true ∨ vb.2.next ≠ []) ∧ NoDead vb.2 := by
                intro vb hvb
                split at hvb
                · have hold := mem_arem hvb
                  exact ⟨hlive (s, m2) (afind_mem h1) vb hold,
                    hrec (s, m2) (afind_mem h1) vb hold⟩
                · rename_i hkept
                  rcases mem_aupd hvb with he | hold
                  · subst he
                    refine ⟨?_, ih c hcn⟩
                    simp only [Bool.and_eq_true, not_and] at hkept
                    rcases hv : (delP c pr).1.value with _ | v1
                    · right
                      intro hnil
                      exact hkept (by rw [hv]; rfl) (List.isEmpty_iff.mpr hnil)
                    · left
                      rfl
                  · exact ⟨hlive (s, m2) (afind_mem h1) vb hold,
                      hrec (s, m2) (afind_mem h1) vb hold⟩
              generalize hM : (if ((delP c pr).1.value.isNone
                  && (delP c pr).1.next.isEmpty) = true
                then arem m2 w else aupd m2 w (delP c pr).1) = M at hm2mem ⊢
              refine NoDead.mk _ _ ?_ ?_
              · intro br hbr vb hvb
                split at hbr
                · exact hlive br (mem_arem hbr) vb hvb
                · rcases mem_aupd hbr with he | hold
                  · subst he
                    exact (hm2mem vb hvb).1
                  · exact hlive br hold vb hvb
              · intro br hbr vb hvb
                split at hbr
                · exact hrec br (mem_arem hbr) vb hvb
                · rcases mem_aupd hbr with he | hold
                  · subst he
                    exact (hm2mem vb hvb).2
                  · exact hrec br hold vb hvb

theorem delete_eq_delP {V : Type} (g : KeyGen) (m : CMap V) (k : CKey) :
    CMap.delete g m k
      = (if (delP m.values (steps g k)).2
          then ({ values := (delP m.values (steps g k)).1, size := m.size - 1 }, true)
          else (m, false)) := by
  unfold CMap.delete steps
  rw [delK_eq_delP]

/-- C3: behaviour of `delete` (modelled from the spec; `src/lib/ckey.ts` has
no `delete` — only the test suite exercises one).  For every map and key under
the default strategy: the boolean result is exactly whether the key held a
present value; when it did not, the map is returned unmodified with `false`;
when it did, `delete` returns `true`, the key becomes absent, `size` drops by
one, and pruning preserves the no-dead-nodes invariant (`NoDead`): no child
with an absent value slot and an empty branch table survives.  Concretely,
after setting `{a:1,b:2} ↦ 1` and `{a:1,b:3} ↦ 11`, `delete({a:1,b:2})`
returns `true`, size becomes 1, `get({a:1,b:2})` is absent and
`get({a:1,b:3})` still returns 11. -/
theorem cmap_delete_correct :
    (∀ (V : Type) (m : CMap V) (k : CKey),
      (CMap.delete asValues m k).2 = (CMap.get asValues m k).isSome
      ∧ ((CMap.get asValues m k).isSome = false → CMap.delete asValues m k = (m, false))
      ∧ ((CMap.get asValues m k).isSome = true →
          CMap.get asValues (CMap.delete asValues m k).1 k = none
          ∧ (CMap.delete asValues m k).1.size = m.size - 1
          ∧ (NoDead m.values → NoDead (CMap.delete asValues m k).1.values)))
    ∧ ((CMap.delete asValues (CMap.set asValues (CMap.set asValues (emptyCMap Nat)
          (kab 1 2) 1) (kab 1 3) 11) (kab 1 2)).2 = true
      ∧ (CMap.delete asValues (CMap.set asValues (CMap.set asValues (emptyCMap Nat)
          (kab 1 2) 1) (kab 1 3) 11) (kab 1 2)).1.size = 1
      ∧ CMap.get asValues (CMap.delete asValues (CMap.set asValues (CMap.set asValues
          (emptyCMap Nat) (kab 1 2) 1) (kab 1 3) 11) (kab 1 2)).1 (kab 1 2) = none
      ∧ CMap.get asValues (CMap.delete asValues (CMap.set asValues (CMap.set asValues
          (emptyCMap Nat) (kab 1 2) 1) (kab 1 3) 11) (kab 1 2)).1 (kab 1 3) = some 11) := by
  constructor
  · intro V m k
    have hget : CMap.get asValues m k = lookupVal m.values (steps asValues k) :=
      get_eq_lookupVal asValues m k
    have hsnd : (delP m.values (steps asValues k)).2
        = (lookupVal m.values (steps asValues k)).isSome :=
      delP_snd (steps asValues k) m.values
    refine ⟨?_, ?_, ?_⟩
    · rw [delete_eq_delP, hget, ← hsnd]
      cases (delP m.values (steps asValues k)).2 <;> simp
    · intro hno
      rw [hget] at hno
      rw [delete_eq_delP, if_neg (by rw [hsnd, hno]; simp)]
    · intro hyes
      rw [hget] at hyes
      have hcond : (delP m.values (steps asValues k)).2 = true := by rw [hsnd, hyes]
      rw [delete_eq_delP, if_pos hcond]
      refine ⟨?_, rfl, ?_⟩
      · rw [get_eq_lookupVal]
        show lookupVal (delP m.values (steps asValues k)).1 (steps asValues k) = none
        rw [lookupVal_delP, if_pos rfl]
      · intro hnd
        exact noDead_delP (steps asValues k) m.values hnd
  · refine ⟨by decide, by decide, by decide, by decide⟩

theorem cmap_delete_correct_witness :
    CMap.get asValues (CMap.delete asValues
        (CMap.set asValues (emptyCMap Nat) (kab 1 2) 5) (kab 1 2)).1 (kab 1 2) = none :=
  ((cmap_delete_correct.1 Nat (CMap.set asValues (emptyCMap Nat) (kab 1 2) 5)
    (kab 1 2)).2.2 (by decide)).1

theorem attach_flatMap_val {α β : Type _} (l : List α) (f : α → List β) :
    l.attach.flatMap (fun x => f x.1) = l.flatMap f := by
  rw [List.flatMap_def, List.flatMap_def, List.attach_map_val]

/-- All linearized key sequences whose value slot is present in the trie: the
node's own (empty) path when its slot is filled, plus every branch step
prepended to the present paths of the corresponding child. -/
def presentPaths {V : Type} : Node V → List (List Step)
  | .mk v nx =>
    (if v.isSome then [([] : List Step)] else [])
      ++ nx.attach.flatMap (fun br =>
          br.1.2.attach.flatMap (fun vb =>
            (presentPaths vb.1.2).map (fun p => (br.1.1, vb.1.1) :: p)))
termination_by n => sizeOf n
decreasing_by
  have h1 := List.sizeOf_lt_of_mem br.2
  have h2 := List.sizeOf_lt_of_mem vb.2
  obtain ⟨⟨s1, l1⟩, hb⟩ := br
  obtain ⟨⟨w1, c1⟩, hv⟩ := vb
  simp at h1 h2 ⊢
  omega

theorem presentPaths_unfold {V : Type} (v : Option V)
    (nx : List (Sel × List (JsValue × Node V))) :
    presentPaths (Node.mk v nx)
      = (if v.isSome then [([] : List Step)] else [])
        ++ nx.flatMap (fun br => br.2.flatMap (fun vb =>
            (presentPaths vb.2).map (fun p => (br.1, vb.1) :: p))) := by
  rw [presentPaths]
  congr 1
  rw [attach_flatMap_val nx (fun br => br.2.attach.flatMap (fun vb =>
      (presentPaths vb.1.2).map (fun p => (br.1, vb.1.1) :: p)))]
  exact List.flatMap_congr (fun a _ => attach_flatMap_val a.2 (fun vb =>
      (presentPaths vb.2).map (fun p => (a.1, vb.1) :: p)))

/-- Well-formedness of the branch tables: at every level the association-list
keys are distinct, as a JavaScript `Map` guarantees. -/
inductive WFTree {V : Type} : Node V → Prop where
  | mk (v : Option V) (nx : List (Sel × List (JsValue × Node V)))
      (hk : (nx.map Prod.fst).Nodup)
      (hk2 : ∀ br ∈ nx, ((br.2.map Prod.fst).Nodup))
      (hrec : ∀ br ∈ nx, ∀ vb ∈ br.2, WFTree vb.2) : WFTree (Node.mk v nx)

theorem wfTree_empty {V : Type} : WFTree (Node.mk (none : Option V) []) :=
  WFTree.mk none [] (by simp) (by simp) (by simp)

theorem wfTree_setP {V : Type} (v : V) : ∀ (p : List Step) (n : Node V),
    WFTree n → WFTree (setP n p v) := by
  intro p
  induction p with
  | nil =>
    intro n hn
    cases n with
    | mk nv nx =>
      rw [setP_nil]
      cases hn with
      | mk _ _ hk hk2 hrec => exact WFTree.mk _ _ hk hk2 hrec
  | cons hd pr ih =>
    obtain ⟨s, w⟩ := hd
    intro n hn
    cases n with
    | mk nv nx =>
      cases hn with
      | mk _ _ hk hk2 hrec =>
        have hm2nodup : (((afind nx s).getD []).map Prod.fst).Nodup := by
          rcases hm : afind nx s with _ | m2
          · simp
          · exact hk2 (s, m2) (afind_mem hm)
        have hm2sub : ∀ vb ∈ ((afind nx s).getD []), WFTree (vb.2 : Node V) := by
          rcases hm : afind nx s with _ | m2
          · intro vb hvb
            simp at hvb
          · intro vb hvb
            simp only [Option.getD] at hvb
            exact hrec (s, m2) (afind_mem hm) vb hvb
        have hchild : WFTree ((afind ((afind nx s).getD []) w).getD (Node.mk none [])) := by
          rcases hc : afind ((afind nx s).getD []) w with _ | c
          · exact wfTree_empty
          · simp only [Option.getD]
            exact hm2sub (w, c) (afind_mem hc)
        rw [setP_cons]
        refine WFTree.mk _ _ (keys_aupd_nodup s _ hk) ?_ ?_
        · intro br hbr
          rcases mem_aupd hbr with he | hold
          · subst he
            exact keys_aupd_nodup w _ hm2nodup
          · exact hk2 br hold
        · intro br hbr vb hvb
          rcases mem_aupd hbr with he | hold
          · subst he
            rcases mem_aupd hvb with he2 | hold2
            · subst he2
              exact ih _ hchild
            · exact hm2sub vb hold2
          · exact hrec br hold vb hvb

theorem wfTree_delP {V : Type} : ∀ (p : List Step) (n : Node V),
    WFTree n → WFTree ((delP n p).1) := by
  intro p
  induction p with
  | nil =>
    intro n hn
    cases n with
    | mk nv nx =>
      cases nv with
      | none => exact hn
      | some v0 =>
        cases hn with
        | mk _ _ hk hk2 hrec => exact WFTree.mk _ _ hk hk2 hrec
  | cons hd pr ih =>
    obtain ⟨s, w⟩ := hd
    intro n hn
    cases n with
    | mk nv nx =>
      cases hn with
      | mk _ _ hk hk2 hrec =>
        cases h1 : afind nx s with
        | none =>
          have hdel : delP (Node.mk nv nx) ((s, w) :: pr) = (Node.mk nv nx, false) := by
            simp [delP, Node.next, h1]
          rw [hdel]
          exact WFTree.mk _ _ hk hk2 hrec
        | some m2 =>
          cases h2 : afind m2 w with
          | none =>
            have hdel : delP (Node.mk nv nx) ((s, w) :: pr) = (Node.mk nv nx, false) := by
              simp [delP, Node.next, h1, h2]
            rw [hdel]
            exact WFTree.mk _ _ hk hk2 hrec
          | some c =>
            have hcn : WFTree c := hrec (s, m2) (afind_mem h1) (w, c) (afind_mem h2)
            cases hr : (delP c pr).2 with
            | false =>
              have hdel : delP (Node.mk nv nx) ((s, w) :: pr) = (Node.mk nv nx, false) := by
                simp [delP, Node.next, h1, h2, hr]
              rw [hdel]
              exact WFTree.mk _ _ hk hk2 hrec
            | true =>
              have hdel : delP (Node.mk nv nx) ((s, w) :: pr)
                  = (Node.mk nv (if (if ((delP c pr).1.value.isNone
                          && (delP c pr).1.next.isEmpty) = true
                        then arem m2 w else aupd m2 w (delP c pr).1).isEmpty = true
                      then arem nx s
                      else aupd nx s (if ((delP c pr).1.value.isNone
                          && (delP c pr).1.next.isEmpty) = true
                        then arem m2 w else aupd m2 w (delP c pr).1)), true) := by
                simp [delP, Node.next, Node.value, h1, h2, hr]
              rw [hdel]
              have hm2nodup : (((if ((delP c pr).1.value.isNone
                  && (delP c pr).1.next.isEmpty) = true
                then arem m2 w else aupd m2 w (delP c pr).1)).map Prod.fst).Nodup := by
                split
                · exact keys_arem_nodup w (hk2 (s, m2) (afind_mem h1))
                · exact keys_aupd_nodup w _ (hk2 (s, m2) (afind_mem h1))
              have hm2wf : ∀ vb ∈ (if ((delP c pr).1.value.isNone
                  && (delP c pr).1.next.isEmpty) = true
                then arem m2 w else aupd m2 w (delP c pr).1), WFTree (vb.2 : Node V) := by
                intro vb hvb
                split at hvb
                · exact hrec (s, m2) (afind_mem h1) vb (mem_arem hvb)
                · rcases mem_aupd hvb with he | hold
                  · subst he
                    exact ih c hcn
                  · exact hrec (s, m2) (afind_mem h1) vb hold
              generalize hM : (if ((delP c pr).1.value.isNone
                  && (delP c pr).1.next.isEmpty) = true
                then arem m2 w else aupd m2 w (delP c pr).1) = M at hm2nodup hm2wf ⊢
              refine WFTree.mk _ _ ?_ ?_ ?_
              · split
                · exact keys_arem_nodup s hk
                · exact keys_aupd_nodup s _ hk
              · intro br hbr
                split at hbr
                · exact hk2 br (mem_arem hbr)
                · rcases mem_aupd hbr with he | hold
                  · subst he
                    exact hm2nodup
                  · exact hk2 br hold
              · intro br hbr vb hvb
                split at hbr
                · exact hrec br (mem_arem hbr) vb hvb
                · rcases mem_aupd hbr with he | hold
                  · subst he
                    exact hm2wf vb hvb
                  · exact hrec br hold vb hvb

theorem mem_branch_paths {V : Type} (br : Sel × List (JsValue × Node V)) (a : List Step)
    (h : a ∈ br.2.flatMap (fun vb =>
        (presentPaths vb.2).map (fun p => (br.1, vb.1) :: p))) :
    ∃ w c p, (w, c) ∈ br.2 ∧ a = (br.1, w) :: p ∧ p ∈ presentPaths c := by
  rcases List.mem_flatMap.mp h with ⟨vb, hvb, hin⟩
  rcases List.mem_map.mp hin with ⟨p, hp, he⟩
  exact ⟨vb.1, vb.2, p, hvb, he.symm, hp⟩

theorem mem_presentPaths {V : Type} : ∀ (q : List Step) (n : Node V), WFTree n →
    (q ∈ presentPaths n ↔ (lookupVal n q).isSome = true) := by
  intro q
  induction q with
  | nil =>
    intro n hn
    cases n with
    | mk v nx =>
      rw [presentPaths_unfold, lookupVal_nil]
      cases v <;> simp [List.mem_flatMap, Node.value]
  | cons hd qr ih =>
    obtain ⟨s, w⟩ := hd
    intro n hn
    cases n with
    | mk v nx =>
      cases hn with
      | mk _ _ hk hk2 hrec =>
        rw [presentPaths_unfold, lookupVal_cons]
        constructor
        · intro hmem
          rcases List.mem_append.mp hmem with hown | hfm
          · exfalso
            split at hown <;> simp at hown
          · rcases List.mem_flatMap.mp hfm with ⟨br, hbr, hin⟩
            rcases mem_branch_paths br _ hin with ⟨w1, c, p, hvb, he, hp⟩
            rw [List.cons.injEq, Prod.mk.injEq] at he
            obtain ⟨⟨hbs, hw⟩, hq⟩ := he
            obtain ⟨bs, bm2⟩ := br
            simp only at hbs hvb
            subst hbs
            subst hw
            subst hq
            have hfa : afind nx s = some bm2 := (afind_eq_some_of_nodup hk).mp hbr
            have hfc : afind bm2 w = some c :=
              (afind_eq_some_of_nodup (hk2 (s, bm2) hbr)).mp hvb
            have hl2 : lookup2 nx s w = some c := by simp [lookup2, hfa, hfc]
            rw [hl2, Option.some_bind]
            exact (ih c (hrec (s, bm2) hbr (w, c) hvb)).mp hp
        · intro hsome
          cases hl2 : lookup2 nx s w with
          | none =>
            rw [hl2, Option.none_bind] at hsome
            simp at hsome
          | some c =>
            rw [hl2, Option.some_bind] at hsome
            have hfa : ∃ m2, afind nx s = some m2 ∧ afind m2 w = some c := by
              unfold lookup2 at hl2
              cases hfa : afind nx s with
              | none => rw [hfa] at hl2; simp at hl2
              | some m2 =>
                rw [hfa] at hl2
                exact ⟨m2, rfl, hl2⟩
            rcases hfa with ⟨m2, hfa, hfc⟩
            have hbr : (s, m2) ∈ nx := afind_mem hfa
            have hvb : (w, c) ∈ m2 := afind_mem hfc
            refine List.mem_append.mpr (Or.inr ?_)
            refine List.mem_flatMap.mpr ⟨(s, m2), hbr, ?_⟩
            refine List.mem_flatMap.mpr ⟨(w, c), hvb, ?_⟩
            exact List.mem_map.mpr ⟨qr,
              (ih c (hrec (s, m2) hbr (w, c) hvb)).mpr hsome, rfl⟩

theorem disjoint_cons_maps (t1 t2 : Step) (l1 l2 : List (List Step))
    (hne : t1 ≠ t2) :
    List.Disjoint (l1.map (fun p => t1 :: p)) (l2.map (fun p => t2 :: p)) := by
  intro a h1 h2
  rcases List.mem_map.mp h1 with ⟨p1, _, he1⟩
  rcases List.mem_map.mp h2 with ⟨p2, _, he2⟩
  rw [← he1, List.cons.injEq] at he2
  exact hne he2.1.symm

theorem nodup_presentPaths {V : Type} : ∀ {n : Node V}, WFTree n →
    (presentPaths n).Nodup := by
  intro n hn
  induction hn with
  | mk v nx hk hk2 hrec ih =>
    rw [presentPaths_unfold]
    rw [List.nodup_append]
    refine ⟨by split <;> simp, ?_, ?_⟩
    · rw [List.nodup_flatMap]
      constructor
      · intro br hbr
        rw [List.nodup_flatMap]
        constructor
        · intro vb hvb
          exact (ih br hbr vb hvb).map (fun p1 p2 he => (List.cons.injEq _ _ _ _).mp he |>.2)
        · have hnd : List.Pairwise (fun a b : JsValue × Node V => a.1 ≠ b.1) br.2 :=
            List.pairwise_map.mp (hk2 br hbr)
          refine hnd.imp ?_
          intro a b hne
          exact disjoint_cons_maps (br.1, a.1) (br.1, b.1) _ _ (by simp [hne])
      · have hnd : List.Pairwise
            (fun a b : Sel × List (JsValue × Node V) => a.1 ≠ b.1) nx :=
          List.pairwise_map.mp hk
        refine hnd.imp ?_
        intro a b hne q h1 h2
        rcases mem_branch_paths a q h1 with ⟨w1, c1, p1, _, he1, _⟩
        rcases mem_branch_paths b q h2 with ⟨w2, c2, p2, _, he2, _⟩
        rw [he1, List.cons.injEq, Prod.mk.injEq] at he2
        exact hne he2.1.1
    · intro a ha
      have he : a = [] := by
        split at ha <;> simp at ha
        exact ha
      subst he
      intro hb
      rcases List.mem_flatMap.mp hb with ⟨br, _, hin⟩
      rcases mem_branch_paths br _ hin with ⟨w1, c, p, _, he, _⟩
      simp at he

theorem length_eq_of_mem_iff {l1 l2 : List (List Step)} (h1 : l1.Nodup) (h2 : l2.Nodup)
    (hm : ∀ q, q ∈ l1 ↔ q ∈ l2) : l1.length = l2.length := by
  rw [← List.toFinset_card_of_nodup h1, ← List.toFinset_card_of_nodup h2]
  congr 1
  ext q
  simp only [List.mem_toFinset]
  exact hm q

theorem length_insert_of_mem_iff {l1 l2 : List (List Step)} (h1 : l1.Nodup) (h2 : l2.Nodup)
    (p : List Step) (hp : p ∉ l2) (hm : ∀ q, q ∈ l1 ↔ (q = p ∨ q ∈ l2)) :
    l1.length = l2.length + 1 := by
  rw [← List.toFinset_card_of_nodup h1, ← List.toFinset_card_of_nodup h2]
  have he : l1.toFinset = insert p l2.toFinset := by
    ext q
    simp only [List.mem_toFinset, Finset.mem_insert]
    exact hm q
  rw [he, Finset.card_insert_of_not_mem (by simpa using hp)]

theorem length_erase_of_mem_iff {l1 l2 : List (List Step)} (h1 : l1.Nodup) (h2 : l2.Nodup)
    (p : List Step) (hp : p ∈ l2) (hm : ∀ q, q ∈ l1 ↔ (q ≠ p ∧ q ∈ l2)) :
    l1.length + 1 = l2.length := by
  rw [← List.toFinset_card_of_nodup h1, ← List.toFinset_card_of_nodup h2]
  have he : l1.toFinset = l2.toFinset.erase p := by
    ext q
    simp only [List.mem_toFinset, Finset.mem_erase]
    exact hm q
  rw [he, Finset.card_erase_add_one (by simpa using hp)]

theorem set_inv {V : Type} (g : KeyGen) (m : CMap V) (k : CKey) (v : V)
    (hwf : WFTree m.values) (hsz : m.size = ((presentPaths m.values).length : Int)) :
    WFTree (CMap.set g m k v).values
    ∧ (CMap.set g m k v).size
        = ((presentPaths (CMap.set g m k v).values).length : Int) := by
  have hwf2 : WFTree (CMap.set g m k v).values := by
    rw [set_values]
    exact wfTree_setP v _ _ hwf
  refine ⟨hwf2, ?_⟩
  have hlv : ∀ q, lookupVal (CMap.set g m k v).values q
      = if q = steps g k then some v else lookupVal m.values q := by
    intro q
    rw [set_values, lookupVal_setP]
  have hsize : (CMap.set g m k v).size
      = m.size + (if (lookupVal m.values (steps g k)).isSome then 0 else 1) := by
    unfold CMap.set
    rw [get_eq_lookupVal]
  by_cases hp : (lookupVal m.values (steps g k)).isSome = true
  · have hlen : (presentPaths (CMap.set g m k v).values).length
        = (presentPaths m.values).length := by
      apply length_eq_of_mem_iff (nodup_presentPaths hwf2) (nodup_presentPaths hwf)
      intro q
      rw [mem_presentPaths q _ hwf2, mem_presentPaths q _ hwf, hlv q]
      by_cases hq : q = steps g k
      · subst hq
        simp [hp]
      · simp [hq]
    rw [hsize, hlen, hsz, hp]
    simp
  · have hnp : steps g k ∉ presentPaths m.values := by
      rw [mem_presentPaths _ _ hwf]
      exact hp
    have hlen : (presentPaths (CMap.set g m k v).values).length
        = (presentPaths m.values).length + 1 := by
      apply length_insert_of_mem_iff (nodup_presentPaths hwf2) (nodup_presentPaths hwf)
        (steps g k) hnp
      intro q
      rw [mem_presentPaths q _ hwf2, mem_presentPaths q _ hwf, hlv q]
      by_cases hq : q = steps g k
      · subst hq
        simp
      · simp [hq]
    rw [hsize, hlen, hsz, if_neg hp]
    push_cast
    ring

theorem del_inv {V : Type} (g : KeyGen) (m : CMap V) (k : CKey)
    (hwf : WFTree m.values) (hsz : m.size = ((presentPaths m.values).length : Int)) :
    WFTree (CMap.delete g m k).1.values
    ∧ (CMap.delete g m k).1.size
        = ((presentPaths (CMap.delete g m k).1.values).length : Int)
    ∧ (∀ q, (lookupVal (CMap.delete g m k).1.values q).isSome = true →
        (lookupVal m.values q).isSome = true) := by
  rw [delete_eq_delP]
  by_cases hc : (delP m.values (steps g k)).2 = true
  · rw [if_pos hc]
    have hwf2 : WFTree (delP m.values (steps g k)).1 :=
      wfTree_delP (steps g k) m.values hwf
    have hlv : ∀ q, lookupVal (delP m.values (steps g k)).1 q
        = if q = steps g k then none else lookupVal m.values q := fun q =>
      lookupVal_delP (steps g k) m.values q
    have hpres : (lookupVal m.values (steps g k)).isSome = true := by
      rw [← delP_snd]
      exact hc
    have hpm : steps g k ∈ presentPaths m.values :=
      (mem_presentPaths _ _ hwf).mpr hpres
    have hlen : (presentPaths (delP m.values (steps g k)).1).length + 1
        = (presentPaths m.values).length := by
      apply length_erase_of_mem_iff (nodup_presentPaths hwf2) (nodup_presentPaths hwf)
        (steps g k) hpm
      intro q
      rw [mem_presentPaths q _ hwf2, mem_presentPaths q _ hwf, hlv q]
      by_cases hq : q = steps g k
      · subst hq
        simp
      · simp [hq]
    refine ⟨hwf2, ?_, ?_⟩
    · show m.size - 1 = _
      rw [hsz, ← hlen]
      push_cast
      ring
    · intro q h
      rw [hlv q] at h
      by_cases hq : q = steps g k
      · rw [if_pos hq] at h
        simp at h
      · rw [if_neg hq] at h
        exact h
  · rw [if_neg hc]
    exact ⟨hwf, hsz, fun q h => h⟩

/-- One public mutation of the map: a `set` or a `delete`. -/
inductive MapOp (V : Type) where
  | set (k : CKey) (v : V)
  | del (k : CKey)

/-- Apply a sequence of set/delete operations, left to right. -/
def applyOps {V : Type} (g : KeyGen) : CMap V → List (MapOp V) → CMap V
  | m, [] => m
  | m, op :: rest =>
    applyOps g
      (match op with
        | .set k v => CMap.set g m k v
        | .del k => (CMap.delete g m k).1)
      rest

/-- The linearized key of a `set` operation (`none` for a `delete`). -/
def setSteps {V : Type} (g : KeyGen) : MapOp V → Option (List Step)
  | .set k _ => some (steps g k)
  | .del _ => none

theorem applyOps_invariant {V : Type} (g : KeyGen) :
    ∀ (ops : List (MapOp V)) (m : CMap V) (E : List (List Step)),
      WFTree m.values →
      m.size = ((presentPaths m.values).length : Int) →
      (∀ q, (lookupVal m.values q).isSome = true → q ∈ E) →
      WFTree (applyOps g m ops).values
      ∧ (applyOps g m ops).size
          = ((presentPaths (applyOps g m ops).values).length : Int)
      ∧ ∀ q, (lookupVal (applyOps g m ops).values q).isSome = true →
          q ∈ E ++ ops.filterMap (setSteps g) := by
  intro ops
  induction ops with
  | nil =>
    intro m E hwf hsz hE
    exact ⟨hwf, hsz, fun q h => by simpa using hE q h⟩
  | cons op rest ih =>
    intro m E hwf hsz hE
    cases op with
    | set k v =>
      have hi := set_inv g m k v hwf hsz
      have hE2 : ∀ q, (lookupVal (CMap.set g m k v).values q).isSome = true →
          q ∈ E ++ [steps g k] := by
        intro q h
        rw [set_values, lookupVal_setP] at h
        by_cases hq : q = steps g k
        · subst hq
          simp
        · rw [if_neg hq] at h
          exact List.mem_append.mpr (Or.inl (hE q h))
      have hmain := ih (CMap.set g m k v) (E ++ [steps g k]) hi.1 hi.2 hE2
      have happ : applyOps g m (MapOp.set k v :: rest)
          = applyOps g (CMap.set g m k v) rest := rfl
      rw [happ]
      refine ⟨hmain.1, hmain.2.1, ?_⟩
      intro q h
      have hq := hmain.2.2 q h
      have hfm : (MapOp.set k v :: rest).filterMap (setSteps g)
          = steps g k :: rest.filterMap (setSteps g) := by
        simp [List.filterMap_cons, setSteps]
      rw [hfm]
      rcases List.mem_append.mp hq with h1 | h1
      · rcases List.mem_append.mp h1 with h2 | h2
        · exact List.mem_append.mpr (Or.inl h2)
        · simp only [List.mem_singleton] at h2
          exact List.mem_append.mpr (Or.inr (h2 ▸ List.mem_cons_self _ _))
      · exact List.mem_append.mpr (Or.inr (List.mem_cons_of_mem _ h1))
    | del k =>
      have hi := del_inv g m k hwf hsz
      have hE2 : ∀ q, (lookupVal (CMap.delete g m k).1.values q).isSome = true →
          q ∈ E := fun q h => hE q (hi.2.2 q h)
      have hmain := ih (CMap.delete g m k).1 E hi.1 hi.2.1 hE2
      have happ : applyOps g m (MapOp.del k :: rest)
          = applyOps g (CMap.delete g m k).1 rest := rfl
      rw [happ]
      refine ⟨hmain.1, hmain.2.1, ?_⟩
      intro q h
      have hq := hmain.2.2 q h
      have hfm : (MapOp.del k :: rest).filterMap (setSteps g)
          = rest.filterMap (setSteps g) := by
        simp [List.filterMap_cons, setSteps]
      rw [hfm]
      exact hq

/-- C4: size consistency (the `size` counter is modelled from the spec, as
`src/lib/ckey.ts` maintains none).  After any sequence of set/delete
operations starting from the empty map, `size` equals the number of distinct
linearized key sequences whose value slot is present (`presentPaths` is
duplicate-free and a path is present exactly when the walk finds a filled
slot, i.e. when `has` would succeed for a key linearizing to it), is never
negative, and never exceeds the number of distinct linearized keys ever
passed to `set`. -/
theorem cmap_size_consistency (V : Type) (g : KeyGen) (ops : List (MapOp V)) :
    (applyOps g (emptyCMap V) ops).size
        = ((presentPaths (applyOps g (emptyCMap V) ops).values).length : Int)
    ∧ (presentPaths (applyOps g (emptyCMap V) ops).values).Nodup
    ∧ (∀ q, q ∈ presentPaths (applyOps g (emptyCMap V) ops).values
        ↔ (lookupVal (applyOps g (emptyCMap V) ops).values q).isSome = true)
    ∧ 0 ≤ (applyOps g (emptyCMap V) ops).size
    ∧ (applyOps g (emptyCMap V) ops).size
        ≤ (((ops.filterMap (setSteps g)).dedup).length : Int) := by
  have hbase2 : (emptyCMap V).size
      = ((presentPaths (emptyCMap V).values).length : Int) := by
    show (0 : Int) = _
    rw [show (emptyCMap V).values = Node.mk none [] from rfl, presentPaths_unfold]
    simp
  have hbase3 : ∀ q, (lookupVal (emptyCMap V).values q).isSome = true →
      q ∈ ([] : List (List Step)) := by
    intro q h
    rw [show (emptyCMap V).values = Node.mk none [] from rfl, lookupVal_dead] at h
    simp at h
  obtain ⟨hwf, hsz, hsub⟩ :=
    applyOps_invariant g ops (emptyCMap V) [] wfTree_empty hbase2 hbase3
  have hnd := nodup_presentPaths hwf
  have hiff := fun q => mem_presentPaths q (applyOps g (emptyCMap V) ops).values hwf
  refine ⟨hsz, hnd, hiff, ?_, ?_⟩
  · rw [hsz]
    exact Int.natCast_nonneg _
  · rw [hsz]
    have hle : (presentPaths (applyOps g (emptyCMap V) ops).values).length
        ≤ ((ops.filterMap (setSteps g)).dedup).length := by
      rw [← List.toFinset_card_of_nodup hnd, ← List.card_toFinset]
      apply Finset.card_le_card
      intro q hq
      rw [List.mem_toFinset] at hq ⊢
      have := hsub q ((hiff q).mp hq)
      simpa using this
    exact_mod_cast hle

theorem cmap_reads_pure_witness :
    asValues (ka 1) = asValues (ka 1) ∧ asObjects (ka 1) = asObjects (ka 1) :=
  (cmap_reads_pure Nat asValues (emptyCMap Nat) (ka 1)).2.2 (ka 1) (ka 1) rfl
